import Mathlib

/-!
# Verification of the module-instance address model and module graph flattening

This development shallowly embeds two source files of the repository:

* `internal/addrs/module_instance.go` — the `ModuleInstance` address type, its
  text rendering (`String`), the prefix parser `parseModuleInstancePrefix`, the
  whole-address parser `parseModuleInstance` / `ParseModuleInstanceStr`, and the
  containment relation `TargetContains`;
* `terraform/graph_config_node_module.go` — the module graph node
  (`GraphNodeConfigModule`: `Name`, `DependableName`) and the flattening of an
  expanded module subgraph (`graphNodeModuleExpanded.FlattenGraph`,
  `graphNodeModuleFlatWrap.Name`).

External collaborators (the HCL traversal lexer, the cty value library, the
instance-key file and the dag graph package, none of which are part of the two
source files) are modelled from the specification, each with a doc comment
saying so.
-/

namespace Addrs

/-- Modelled from the spec: the instance key of `internal/addrs/instance_key.go`
(not under the provided sources) — "a discriminated value (none / string /
integer) identifying one instantiation of a module call". -/
inductive InstanceKey where
  | noKey
  | stringKey (s : String)
  | intKey (n : Int)
deriving DecidableEq, Repr

/-- Decimal digits of a natural number, most significant first, as numbers. -/
def natDigits (n : Nat) : List Nat :=
  if _h : n < 10 then [n]
  else natDigits (n / 10) ++ [n % 10]
termination_by n
decreasing_by
  exact Nat.div_lt_self (by omega) (by omega)

/-- Decimal rendering of a natural number, modelling Go's `%d`. -/
def natChars (n : Nat) : List Char :=
  (natDigits n).map Nat.digitChar

/-- Decimal rendering of an integer, modelling Go's `%d`. -/
def intChars (n : Int) : List Char :=
  if n < 0 then '-' :: natChars (-n).toNat else natChars n.toNat

/-- Modelled from the spec: rendering of a non-`none` instance key
(`instance_key.go` is not under the provided sources) — "each step renders as
`module.<name>` optionally followed by the key's rendering", where the key is
written "`[<key>]` where `<key>` is a quoted string or a bare integer". -/
def InstanceKey.render : InstanceKey → String
  | .noKey => ""
  | .stringKey s => "[\"" ++ s ++ "\"]"
  | .intKey n => "[" ++ ⟨intChars n⟩ ++ "]"

/-- One step of a `ModuleInstance` (`ModuleInstanceStep` in the source). -/
structure ModuleInstanceStep where
  name : String
  instanceKey : InstanceKey
deriving DecidableEq, Repr

/-- Source type `ModuleInstance`: a sequence of steps (a Go slice of
`ModuleInstanceStep`). -/
abbrev ModuleInstance := List ModuleInstanceStep

/-- Function `ModuleInstance.String` from the source: steps are written `module.<name>`,
the key is appended when it is not `NoKey`, and a `.` separator is written
before every step but the first (the running `sep` variable). The accumulator
pair is (buffer contents, current separator). -/
def ModuleInstance.render (m : ModuleInstance) : String :=
  (List.foldl
    (fun (acc : String × String) (step : ModuleInstanceStep) =>
      (acc.1 ++ acc.2 ++ "module." ++ step.name ++
        (if step.instanceKey ≠ InstanceKey.noKey then step.instanceKey.render else ""),
       "."))
    ("", "") m).1

/-- Diagnostic severity (`hcl.DiagError` / `hcl.DiagWarning`); source ranges
are dropped from the model because no claim concerns them. -/
inductive Severity where
  | error
  | warning
deriving DecidableEq, Repr

/-- An `hcl.Diagnostic`, reduced to the fields the claims talk about. -/
structure Diagnostic where
  severity : Severity
  summary : String
  detail : String
deriving DecidableEq, Repr

deriving instance DecidableEq for Except

/-- Modelled from the spec: a `cty` value appearing as a traversal index — "a
string-valued index becomes a string key; a numeric-valued index is converted
to an integer key; if numeric conversion fails, record an error diagnostic".
The numeric case carries the outcome of `gocty.FromCtyValue` into `int`
(`.ok n` when the conversion succeeds, `.error e` with the error text when it
fails); `other` stands for any non-string non-number index type. -/
inductive CtyVal where
  | str (s : String)
  | num (asInt : Except String Int)
  | other
deriving DecidableEq, Repr

/-- One `hcl.Traverser`: a root name, an attribute name, or an index. -/
inductive Traverser where
  | root (name : String)
  | attr (name : String)
  | index (key : CtyVal)
deriving DecidableEq, Repr

def diagInvalidOperator : Diagnostic :=
  ⟨.error, "Invalid address operator",
    "Module address prefix must be followed by dot and then a name."⟩

def diagModuleName : Diagnostic :=
  ⟨.error, "Invalid address operator",
    "Prefix \"module.\" must be followed by a module name."⟩

def diagBadIndex (err : String) : Diagnostic :=
  ⟨.error, "Invalid address operator", "Invalid module index: " ++ err ++ "."⟩

def diagBadKeyType : Diagnostic :=
  ⟨.error, "Invalid address operator",
    "Invalid module key: must be either a string or an integer."⟩

/-- The first `switch` of the loop of `parseModuleInstancePrefix`: the keyword
candidate `next` read from the head token. An index token records
`diagInvalidOperator`; its `break` only leaves the Go `switch`, so `next`
stays `""` and the `next != "module"` test below ends the loop. -/
def keywordOf (t0 : Traverser) (diags : List Diagnostic) :
    String × List Diagnostic :=
  match t0 with
  | .root n => (n, diags)
  | .attr n => (n, diags)
  | .index _ => ("", diags ++ [diagInvalidOperator])

/-- The second `switch`: the module call name after the `module` keyword. A
non-attribute token records `diagModuleName`; the `break` there only leaves
the Go `switch`, not the loop, so `moduleName` stays `""` and the token is
consumed as if it were the name. -/
def nameOf (r1 : Traverser) (diags : List Diagnostic) :
    String × List Diagnostic :=
  match r1 with
  | .attr n => (n, diags)
  | _ => ("", diags ++ [diagModuleName])

/-- The `switch idx.Key.Type()`: a string index becomes a string key; a
numeric index becomes an integer key when the `int` conversion succeeds and
otherwise records `diagBadIndex`, leaving the step unkeyed; any other index
type records `diagBadKeyType`. -/
def keyOf (k : CtyVal) (diags : List Diagnostic) :
    InstanceKey × List Diagnostic :=
  match k with
  | .str s => (.stringKey s, diags)
  | .num (.ok n) => (.intKey n, diags)
  | .num (.error e) => (.noKey, diags ++ [diagBadIndex e])
  | .other => (.noKey, diags ++ [diagBadKeyType])

/-- The loop of `parseModuleInstancePrefix`. Each iteration reads the keyword
(`keywordOf`); a head token not named `module` ends the loop with the input
unconsumed. After the keyword, a missing name token records `diagModuleName`
and ends the loop; otherwise the next token is consumed as the call name
(`nameOf`), an index token is optionally consumed as the instance key
(`keyOf`), the step is appended and the loop continues. The four arms split
the token list only so far as one iteration needs: one-token input (keyword
but no name), an index token in key position, and anything else in key
position (including an exhausted input, for which the recursive call returns
immediately). -/
def parsePrefixLoop :
    List Traverser → ModuleInstance → List Diagnostic →
      ModuleInstance × List Traverser × List Diagnostic
  | [], mi, diags => (mi, [], diags)
  | [t0], mi, diags =>
    let nextD := keywordOf t0 diags
    if nextD.1 = "module" then
      (mi, [], nextD.2 ++ [diagModuleName])
    else
      (mi, [t0], nextD.2)
  | t0 :: r1 :: .index k :: rest3, mi, diags =>
    let nextD := keywordOf t0 diags
    if nextD.1 = "module" then
      let nameD := nameOf r1 nextD.2
      let keyD := keyOf k nameD.2
      parsePrefixLoop rest3 (mi ++ [⟨nameD.1, keyD.1⟩]) keyD.2
    else
      (mi, t0 :: r1 :: .index k :: rest3, nextD.2)
  | t0 :: r1 :: rest2, mi, diags =>
    let nextD := keywordOf t0 diags
    if nextD.1 = "module" then
      let nameD := nameOf r1 nextD.2
      parsePrefixLoop rest2 (mi ++ [⟨nameD.1, InstanceKey.noKey⟩]) nameD.2
    else
      (mi, t0 :: r1 :: rest2, nextD.2)
termination_by structural ts _ _ => ts

/-- The remainder normalization at the end of `parseModuleInstancePrefix`: an
empty remainder is returned as nil, and a leading attribute token is rewritten
to a root token so callers always see a root-level reference. -/
def normalizeRemain : List Traverser → List Traverser
  | [] => []
  | .attr n :: rest => .root n :: rest
  | r => r

/-- Function `parseModuleInstancePrefix` from the source. -/
def parseModuleInstancePrefix (traversal : List Traverser) :
    ModuleInstance × List Traverser × List Diagnostic :=
  let r := parsePrefixLoop traversal [] []
  (r.1, normalizeRemain r.2.1, r.2.2)

def diagMustBegin : Diagnostic :=
  ⟨.error, "Invalid module instance address",
    "A module instance address must begin with \"module.\"."⟩

def diagExtraContent : Diagnostic :=
  ⟨.error, "Invalid module instance address",
    "The module instance address is followed by additional invalid content."⟩

/-- Function `parseModuleInstance` from the source: parse a prefix and reject any
remainder, distinguishing "nothing consumed" (`len(remain) == len(traversal)`)
from "partially consumed". -/
def parseModuleInstance (traversal : List Traverser) :
    ModuleInstance × List Diagnostic :=
  let r := parseModuleInstancePrefix traversal
  if r.2.1.length ≠ 0 then
    if r.2.1.length = traversal.length then
      (r.1, r.2.2 ++ [diagMustBegin])
    else
      (r.1, r.2.2 ++ [diagExtraContent])
  else
    (r.1, r.2.2)

end Addrs

namespace Addrs

/-! ## The HCL traversal lexer, modelled from the spec

`ParseModuleInstanceStr` first runs `hclsyntax.ParseTraversalAbs`, an external
collaborator. The spec describes the address text syntax: "dotted tokens; a
module step is `module.<name>` optionally followed by `[<key>]` where `<key>`
is a quoted string or a bare integer; sequences of such steps chain together".
The lexer below realizes that syntax: an identifier root, then a sequence of
`.name` attribute tokens and `[...]` index tokens. The `fuel` argument is an
upper bound on the number of tokens still to be read; the entry point passes
the input length, which always suffices because every token consumes at least
one character. -/

def isIdentStart (c : Char) : Bool := c.isAlpha || c = '_'

def isIdentCont (c : Char) : Bool := c.isAlphanum || c = '_' || c = '-'

/-- Take a leading identifier; fails when the input does not start with an
identifier-start character. -/
def takeIdent (cs : List Char) : Option (String × List Char) :=
  match cs with
  | c :: _ =>
    if isIdentStart c then
      let p := cs.span isIdentCont
      some (⟨p.1⟩, p.2)
    else
      none
  | [] => none

/-- Numeric value of a list of decimal digit characters. -/
def digitsVal (cs : List Char) : Nat :=
  cs.foldl (fun acc c => acc * 10 + (c.toNat - 48)) 0

/-- Modelled from the spec: the token stream after the root identifier — a
sequence of `.name` attribute steps and `[<key>]` index steps where the key is
a quoted string or a bare integer. -/
def lexRest (fuel : Nat) (cs : List Char) : Except String (List Traverser) :=
  match fuel, cs with
  | _, [] => .ok []
  | 0, _ :: _ => .error "traversal too long"
  | fuel + 1, '.' :: cs1 =>
    match takeIdent cs1 with
    | some (n, cs2) => (lexRest fuel cs2).map (Traverser.attr n :: ·)
    | none => .error "attribute name required after dot"
  | fuel + 1, '[' :: cs1 =>
    match cs1 with
    | '"' :: cs2 =>
      let p := cs2.span (fun c => c ≠ '"')
      match p.2 with
      | '"' :: ']' :: cs3 =>
        (lexRest fuel cs3).map (Traverser.index (.str ⟨p.1⟩) :: ·)
      | _ => .error "unterminated string index"
    | _ =>
      let p := cs1.span Char.isDigit
      if p.1 = [] then .error "index must be a quoted string or an integer"
      else
        match p.2 with
        | ']' :: cs3 =>
          (lexRest fuel cs3).map
            (Traverser.index (.num (.ok (Int.ofNat (digitsVal p.1)))) :: ·)
        | _ => .error "unclosed index bracket"
  | _ + 1, _ :: _ => .error "invalid character in address"

/-- Modelled from the spec: `hclsyntax.ParseTraversalAbs` — an absolute
traversal is a root identifier followed by attribute and index steps. -/
def parseTraversalAbs (s : String) : Except String (List Traverser) :=
  match takeIdent s.data with
  | some (root, rest) => (lexRest s.data.length rest).map (Traverser.root root :: ·)
  | none => .error "variable name required"

/-- The diagnostic wrapping a failed traversal parse (the `parseDiags`
appended by `ParseModuleInstanceStr`). -/
def diagLex (e : String) : Diagnostic := ⟨.error, "Invalid traversal", e⟩

/-- Function `ParseModuleInstanceStr` from the source: lex the string as an absolute
traversal (returning a nil address when that fails), then interpret it with
`parseModuleInstance`. -/
def ParseModuleInstanceStr (s : String) : ModuleInstance × List Diagnostic :=
  match parseTraversalAbs s with
  | .error e => (([] : List ModuleInstanceStep), [diagLex e])
  | .ok tr => parseModuleInstance tr

end Addrs

namespace Addrs

/-! ## Containment / targeting -/

/-- Modelled from the spec for the non-`ModuleInstance` cases: a `Targetable`
is a module instance, an absolute resource or absolute resource instance
(types not under the provided sources; per the spec they are "first reduced to
[their] owning module instance"), or any other targetable implementation
(`otherTargetable`), which the `default` branch of `TargetContains` rejects.
The resource payload beyond the owning module is irrelevant to containment and
is modelled as a mode/type/name triple. -/
inductive Targetable where
  | moduleInstance (m : ModuleInstance)
  | absResource (mod : ModuleInstance) (typ name : String)
  | absResourceInstance (mod : ModuleInstance) (typ name : String) (key : InstanceKey)
  | otherTargetable
deriving DecidableEq, Repr

/-- The loop body of the `ModuleInstance` case of `TargetContains`: every step
of the receiver must equal the step of the other address at the same
position. -/
def stepsContained : List ModuleInstanceStep → List ModuleInstanceStep → Bool
  | [], _ => true
  | _ :: _, [] => false
  | a :: as, b :: bs => decide (a = b) && stepsContained as bs

/-- The `ModuleInstance` case of `TargetContains`: shorter other addresses are
rejected, then the receiver's steps are compared positionally. -/
def containsMI (m b : ModuleInstance) : Bool :=
  if b.length < m.length then false else stepsContained m b

/-- Function `ModuleInstance.TargetContains` from the source: module instances are
compared positionally, resource-like addresses are reduced to their owning
module instance, and anything else is rejected. -/
def ModuleInstance.targetContains (m : ModuleInstance) : Targetable → Bool
  | .moduleInstance b => containsMI m b
  | .absResource mod _ _ => containsMI m mod
  | .absResourceInstance mod _ _ _ => containsMI m mod
  | .otherTargetable => false

end Addrs

namespace Terraform

/-! ## `terraform/graph_config_node_module.go` -/

/-- A declared output of the called module (`config.Outputs` entry); only the
name matters to the claims. -/
structure ModuleOutput where
  name : String
deriving DecidableEq, Repr

/-- Modelled from the spec: the configuration-tree collaborator — per module it
"exposes ... its declared outputs" (`n.Tree.Config()`); only the outputs are
needed here. -/
structure ModuleTreeConfig where
  outputs : List ModuleOutput
deriving DecidableEq, Repr

/-- The called module's entry in the parent configuration (`config.Module`);
only its name matters to the claims. -/
structure ConfigModule where
  name : String
deriving DecidableEq, Repr

/-- Structure `GraphNodeConfigModule` from the source: a module call site, with its
static path, the call configuration and the called module's configuration
tree. -/
structure GraphNodeConfigModule where
  path : List String
  moduleCall : ConfigModule
  tree : ModuleTreeConfig
deriving DecidableEq, Repr

/-- Function `GraphNodeConfigModule.Name` from the source: `module.<callname>`. -/
def GraphNodeConfigModule.nodeName (n : GraphNodeConfigModule) : String :=
  "module." ++ n.moduleCall.name

/-- Function `GraphNodeConfigModule.DependableName` from the source: a slice whose
first element is the node's own name, extended by one entry
`<Name()>.<outputname>` per declared output of the called module (the Go
`append` loop over `config.Outputs`). -/
def GraphNodeConfigModule.dependableName (n : GraphNodeConfigModule) : List String :=
  n.tree.outputs.foldl
    (fun acc o => acc ++ [n.nodeName ++ "." ++ o.name]) [n.nodeName]

/-- A vertex of a module subgraph before flattening, with the capabilities the
flattening engine queries: `hasSkip` says whether the vertex implements
`graphNodeModuleSkippable` (and `flattenSkip` is its `FlattenSkip()` answer),
`wrappable` whether it implements `graphNodeModuleWrappable`. `id` stands for
the distinct identity of the underlying Go object and `name` for
`dag.VertexName`. -/
structure BaseVertex where
  id : Nat
  name : String
  hasSkip : Bool
  flattenSkip : Bool
  wrappable : Bool
deriving DecidableEq, Repr

/-- A vertex as it may occur in a graph: an ordinary vertex, or a
`graphNodeModuleFlatWrap` produced by flattening, carrying the wrapped vertex,
the subgraph path and the precomputed path string. -/
inductive GVertex where
  | base (v : BaseVertex)
  | flatWrap (inner : GVertex) (path : List String) (pathString : String)
deriving DecidableEq, Repr

/-- Function `dag.VertexName`, with `graphNodeModuleFlatWrap.Name` from the source for
wrapped vertices: `<PathString>.<wrapped name>`. -/
def GVertex.vertexName : GVertex → String
  | .base v => v.name
  | .flatWrap inner _ ps => ps ++ "." ++ inner.vertexName

/-- The `v.(graphNodeModuleSkippable)` check combined with `FlattenSkip()`. A
flat-wrap node embeds only the `graphNodeModuleWrappable` interface, which
does not include `FlattenSkip`, so the type assertion fails on it. -/
def GVertex.skips : GVertex → Bool
  | .base v => v.hasSkip && v.flattenSkip
  | .flatWrap _ _ _ => false

/-- The `v.(graphNodeModuleWrappable)` check. A flat-wrap node embeds that
interface, so the assertion always succeeds on it. -/
def GVertex.isWrappable : GVertex → Bool
  | .base v => v.wrappable
  | .flatWrap _ _ _ => true

/-- Modelled from the spec: the external dag graph collaborator — "an arena of
vertices", with a vertex list, an edge list (ordered pairs), and the
subgraph's module path. -/
@[ext]
structure Graph where
  path : List String
  vertices : List GVertex
  edges : List (GVertex × GVertex)
deriving DecidableEq, Repr

/-- Modelled from the spec: `dag.Graph.Remove` — removing a vertex deletes it
"and its edges ... from the subgraph entirely". -/
def Graph.removeVertex (g : Graph) (v : GVertex) : Graph :=
  { g with
    vertices := g.vertices.filter (fun x => x ≠ v),
    edges := g.edges.filter (fun e => e.1 ≠ v && e.2 ≠ v) }

/-- Modelled from the spec: `dag.Graph.Replace` — "replace rewires
incoming/outgoing edge lists to the new identity in place, rather than
rebuilding the graph". -/
def Graph.replaceVertex (g : Graph) (v w : GVertex) : Graph :=
  { g with
    vertices := g.vertices.map (fun x => if x = v then w else x),
    edges := g.edges.map
      (fun e => (if e.1 = v then w else e.1, if e.2 = v then w else e.2)) }

/-- The path string computed by `FlattenGraph`: the literal `module` followed
by the step name, for every path element after the root, dot-joined. -/
def modulePathString (path : List String) : String :=
  String.intercalate "." ((path.drop 1).flatMap (fun p => ["module", p]))

/-- One iteration of the vertex loop in `FlattenGraph`: a skippable vertex
answering `FlattenSkip()` true is removed with its edges; otherwise a vertex
that is not wrappable aborts (`panic("unwrappable node: " + name)`, modelled
as `Except.error`); otherwise the vertex is replaced in place by a flat-wrap
node carrying the graph path and the path string. -/
def flattenVisit (path : List String) (pathStr : String) (g : Graph)
    (v : GVertex) : Except String Graph :=
  if v.skips then
    .ok (g.removeVertex v)
  else if v.isWrappable then
    .ok (g.replaceVertex v (.flatWrap v path pathStr))
  else
    .error ("unwrappable node: " ++ v.vertexName)

/-- Function `graphNodeModuleExpanded.FlattenGraph` from the source: compute the path
string once, then run the vertex loop over a snapshot of the subgraph's
vertices, threading the mutated graph. -/
def FlattenGraph (g : Graph) : Except String Graph :=
  let pathStr := modulePathString g.path
  g.vertices.foldlM (flattenVisit g.path pathStr) g

end Terraform

namespace Addrs

/-! ## Theorems: containment (C1) -/

lemma stepsContained_iff (a b : List ModuleInstanceStep) :
    stepsContained a b = true ↔
      (a.length ≤ b.length ∧ ∀ i, i < a.length → a[i]? = b[i]?) := by
  induction a generalizing b with
  | nil => simp [stepsContained]
  | cons x as ih =>
    cases b with
    | nil =>
      simp [stepsContained]
    | cons y bs =>
      rw [stepsContained]
      simp only [Bool.and_eq_true, decide_eq_true_eq, ih, List.length_cons]
      constructor
      · rintro ⟨rfl, hlen, hpos⟩
        refine ⟨by omega, ?_⟩
        intro i hi
        cases i with
        | zero => simp
        | succ j =>
          simp only [List.getElem?_cons_succ]
          exact hpos j (by omega)
      · rintro ⟨hlen, hpos⟩
        have h0 := hpos 0 (by omega)
        simp only [List.getElem?_cons_zero, Option.some.injEq] at h0
        refine ⟨h0, by omega, ?_⟩
        intro i hi
        have := hpos (i + 1) (by omega)
        simpa using this

/-- C1. For every pair of `ModuleInstance` addresses `a` and `b`,
`TargetContains a b` is true iff `b`'s step sequence is at least as long as
`a`'s and every step of `a` equals the step of `b` at the same position (in
name and instance key, by step equality); an `absResource` or
`absResourceInstance` argument is decided on its owning module instance, and
any other kind of `Targetable` yields false. -/
theorem targetContains_spec (a : ModuleInstance) :
    (∀ b : ModuleInstance,
        a.targetContains (.moduleInstance b) = true ↔
          (a.length ≤ b.length ∧ ∀ i, i < a.length → a[i]? = b[i]?))
    ∧ (∀ mod typ nm, a.targetContains (.absResource mod typ nm) =
        a.targetContains (.moduleInstance mod))
    ∧ (∀ mod typ nm k, a.targetContains (.absResourceInstance mod typ nm k) =
        a.targetContains (.moduleInstance mod))
    ∧ a.targetContains .otherTargetable = false := by
  refine ⟨fun b => ?_, fun _ _ _ => rfl, fun _ _ _ _ => rfl, rfl⟩
  show containsMI a b = true ↔ _
  rw [containsMI]
  by_cases h : b.length < a.length
  · simp only [h, if_true]
    constructor
    · intro hf; cases hf
    · rintro ⟨hlen, _⟩; omega
  · simp only [h, if_false, stepsContained_iff]

/-- Witness for C1 at a concrete pair of addresses: `module.a` contains
`module.a.module.b["x"]`. -/
theorem targetContains_spec_witness :
    ModuleInstance.targetContains [⟨"a", .noKey⟩]
      (.moduleInstance [⟨"a", .noKey⟩, ⟨"b", .stringKey "x"⟩]) = true :=
  ((targetContains_spec [⟨"a", .noKey⟩]).1
      [⟨"a", .noKey⟩, ⟨"b", .stringKey "x"⟩]).mpr
    ⟨by decide, by decide⟩

end Addrs

namespace Terraform

/-! ## Theorems: dependable names (C6) -/

lemma foldl_append_singleton {α β : Type} (f : α → β) :
    ∀ (l : List α) (init : List β),
      l.foldl (fun acc o => acc ++ [f o]) init = init ++ l.map f := by
  intro l
  induction l with
  | nil => simp
  | cons x xs ih =>
    intro init
    simp [ih (init ++ [f x])]

/-- C6. For a module graph node, `DependableName` returns the node's own
dependency name (`module.<callname>`) followed by one qualified name per
declared output of the called module's configuration, each of the form
`<node name>.<outputname>` = `module.<callname>.<outputname>`, in declaration
order. -/
theorem dependableName_spec (n : GraphNodeConfigModule) :
    n.dependableName =
      n.nodeName ::
        n.tree.outputs.map
          (fun o => "module." ++ n.moduleCall.name ++ "." ++ o.name)
    ∧ n.nodeName = "module." ++ n.moduleCall.name := by
  constructor
  · rw [GraphNodeConfigModule.dependableName, foldl_append_singleton]
    simp [GraphNodeConfigModule.nodeName, String.append_assoc]
  · rfl

end Terraform


namespace Addrs

/-! ## Parser infrastructure lemmas

Unconditional per-arm equations for the loop, and the accumulator lemmas
showing a run only ever appends to the step and diagnostic accumulators. -/

lemma parsePrefixLoop_nil (mi ds) : parsePrefixLoop [] mi ds = (mi, [], ds) := rfl

lemma parsePrefixLoop_one (t0 mi ds) :
    parsePrefixLoop [t0] mi ds =
      (if (keywordOf t0 ds).1 = "module" then
        (mi, [], (keywordOf t0 ds).2 ++ [diagModuleName])
       else (mi, [t0], (keywordOf t0 ds).2)) := rfl

lemma parsePrefixLoop_pair (t0 r1 mi ds) :
    parsePrefixLoop [t0, r1] mi ds =
      (if (keywordOf t0 ds).1 = "module" then
        (mi ++ [⟨(nameOf r1 (keywordOf t0 ds).2).1, .noKey⟩], [],
          (nameOf r1 (keywordOf t0 ds).2).2)
       else (mi, [t0, r1], (keywordOf t0 ds).2)) := rfl

lemma parsePrefixLoop_idx (t0 r1 k rest3 mi ds) :
    parsePrefixLoop (t0 :: r1 :: .index k :: rest3) mi ds =
      (if (keywordOf t0 ds).1 = "module" then
        parsePrefixLoop rest3
          (mi ++ [⟨(nameOf r1 (keywordOf t0 ds).2).1,
                   (keyOf k (nameOf r1 (keywordOf t0 ds).2).2).1⟩])
          (keyOf k (nameOf r1 (keywordOf t0 ds).2).2).2
       else (mi, t0 :: r1 :: .index k :: rest3, (keywordOf t0 ds).2)) := rfl

lemma parsePrefixLoop_root (t0 r1 n2 rest3 mi ds) :
    parsePrefixLoop (t0 :: r1 :: .root n2 :: rest3) mi ds =
      (if (keywordOf t0 ds).1 = "module" then
        parsePrefixLoop (Traverser.root n2 :: rest3)
          (mi ++ [⟨(nameOf r1 (keywordOf t0 ds).2).1, .noKey⟩])
          (nameOf r1 (keywordOf t0 ds).2).2
       else (mi, t0 :: r1 :: .root n2 :: rest3, (keywordOf t0 ds).2)) := rfl

lemma parsePrefixLoop_attr (t0 r1 n2 rest3 mi ds) :
    parsePrefixLoop (t0 :: r1 :: .attr n2 :: rest3) mi ds =
      (if (keywordOf t0 ds).1 = "module" then
        parsePrefixLoop (Traverser.attr n2 :: rest3)
          (mi ++ [⟨(nameOf r1 (keywordOf t0 ds).2).1, .noKey⟩])
          (nameOf r1 (keywordOf t0 ds).2).2
       else (mi, t0 :: r1 :: .attr n2 :: rest3, (keywordOf t0 ds).2)) := rfl

lemma keywordOf_acc (t0 : Traverser) (ds : List Diagnostic) :
    keywordOf t0 ds = ((keywordOf t0 []).1, ds ++ (keywordOf t0 []).2) := by
  cases t0 <;> simp [keywordOf]

lemma nameOf_acc (r1 : Traverser) (ds : List Diagnostic) :
    nameOf r1 ds = ((nameOf r1 []).1, ds ++ (nameOf r1 []).2) := by
  cases r1 <;> simp [nameOf]

lemma keyOf_acc (k : CtyVal) (ds : List Diagnostic) :
    keyOf k ds = ((keyOf k []).1, ds ++ (keyOf k []).2) := by
  rcases k with s | a | _
  · simp [keyOf]
  · rcases a with e | n <;> simp [keyOf]
  · simp [keyOf]

lemma parsePrefixLoop_acc_aux (n : Nat) :
    ∀ ts : List Traverser, ts.length ≤ n →
      ∀ (mi : ModuleInstance) (ds : List Diagnostic),
        parsePrefixLoop ts mi ds =
          (mi ++ (parsePrefixLoop ts [] []).1,
           (parsePrefixLoop ts [] []).2.1,
           ds ++ (parsePrefixLoop ts [] []).2.2) := by
  induction n with
  | zero =>
    intro ts hts mi ds
    have h : ts = [] := by cases ts <;> simp_all
    subst h
    simp [parsePrefixLoop_nil]
  | succ n ih =>
    intro ts hts mi ds
    rcases ts with _ | ⟨t0, _ | ⟨r1, _ | ⟨t2, rest3⟩⟩⟩
    · simp [parsePrefixLoop_nil]
    · obtain ⟨K, A, hK⟩ : ∃ K A, ∀ d, keywordOf t0 d = (K, d ++ A) :=
        ⟨_, _, fun d => keywordOf_acc t0 d⟩
      by_cases h : K = "module" <;>
        simp [parsePrefixLoop_one, hK, h, List.append_assoc]
    · obtain ⟨K, A, hK⟩ : ∃ K A, ∀ d, keywordOf t0 d = (K, d ++ A) :=
        ⟨_, _, fun d => keywordOf_acc t0 d⟩
      obtain ⟨N, B, hN⟩ : ∃ N B, ∀ d, nameOf r1 d = (N, d ++ B) :=
        ⟨_, _, fun d => nameOf_acc r1 d⟩
      by_cases h : K = "module" <;>
        simp [parsePrefixLoop_pair, hK, hN, h, List.append_assoc]
    · obtain ⟨K, A, hK⟩ : ∃ K A, ∀ d, keywordOf t0 d = (K, d ++ A) :=
        ⟨_, _, fun d => keywordOf_acc t0 d⟩
      obtain ⟨N, B, hN⟩ : ∃ N B, ∀ d, nameOf r1 d = (N, d ++ B) :=
        ⟨_, _, fun d => nameOf_acc r1 d⟩
      rcases t2 with n2 | n2 | k
      · obtain ⟨X, R, D, hP⟩ :
            ∃ X R D, parsePrefixLoop (Traverser.root n2 :: rest3) [] [] = (X, R, D) :=
          ⟨_, _, _, rfl⟩
        have ihr : ∀ mi' ds',
            parsePrefixLoop (Traverser.root n2 :: rest3) mi' ds' = (mi' ++ X, R, ds' ++ D) := by
          intro mi' ds'
          rw [ih _ (by simp at hts ⊢; omega) mi' ds', hP]
        by_cases h : K = "module" <;>
          simp [parsePrefixLoop_root, hK, hN, ihr, h, List.append_assoc]
      · obtain ⟨X, R, D, hP⟩ :
            ∃ X R D, parsePrefixLoop (Traverser.attr n2 :: rest3) [] [] = (X, R, D) :=
          ⟨_, _, _, rfl⟩
        have ihr : ∀ mi' ds',
            parsePrefixLoop (Traverser.attr n2 :: rest3) mi' ds' = (mi' ++ X, R, ds' ++ D) := by
          intro mi' ds'
          rw [ih _ (by simp at hts ⊢; omega) mi' ds', hP]
        by_cases h : K = "module" <;>
          simp [parsePrefixLoop_attr, hK, hN, ihr, h, List.append_assoc]
      · obtain ⟨Key, C, hC⟩ : ∃ Key C, ∀ d, keyOf k d = (Key, d ++ C) :=
          ⟨_, _, fun d => keyOf_acc k d⟩
        obtain ⟨X, R, D, hP⟩ :
            ∃ X R D, parsePrefixLoop rest3 [] [] = (X, R, D) :=
          ⟨_, _, _, rfl⟩
        have ihr : ∀ mi' ds',
            parsePrefixLoop rest3 mi' ds' = (mi' ++ X, R, ds' ++ D) := by
          intro mi' ds'
          rw [ih _ (by simp at hts ⊢; omega) mi' ds', hP]
        by_cases h : K = "module" <;>
          simp [parsePrefixLoop_idx, hK, hN, hC, ihr, h, List.append_assoc]

/-- Any run of the loop is the empty-accumulator run with the initial step
list and diagnostics prepended. -/
lemma parsePrefixLoop_acc (ts : List Traverser) (mi : ModuleInstance)
    (ds : List Diagnostic) :
    parsePrefixLoop ts mi ds =
      (mi ++ (parsePrefixLoop ts [] []).1,
       (parsePrefixLoop ts [] []).2.1,
       ds ++ (parsePrefixLoop ts [] []).2.2) :=
  parsePrefixLoop_acc_aux ts.length ts le_rfl mi ds

end Addrs

namespace Addrs

/-! ## Theorems: index-conversion failure (C4) and the keyword-abort slip (C2) -/

/-- C4. When an index token follows a module name and its numeric value cannot
be converted to an integer (`gocty.FromCtyValue` fails with error text `e`),
the parser records the "Invalid module index" diagnostic but still appends the
step with no instance key, and parsing continues on the remaining tokens: the
whole parse is the parse of the rest with the unkeyed step and the diagnostic
prepended. -/
theorem parseIndexFailure_spec (nm e : String) (rest : List Traverser) :
    parseModuleInstancePrefix
        (.root "module" :: .attr nm :: .index (.num (.error e)) :: rest) =
      (⟨nm, .noKey⟩ :: (parseModuleInstancePrefix rest).1,
       (parseModuleInstancePrefix rest).2.1,
       diagBadIndex e :: (parseModuleInstancePrefix rest).2.2) := by
  obtain ⟨X, R, D, hP⟩ : ∃ X R D, parsePrefixLoop rest [] [] = (X, R, D) :=
    ⟨_, _, _, rfl⟩
  have hacc := parsePrefixLoop_acc rest [⟨nm, .noKey⟩] [diagBadIndex e]
  rw [hP] at hacc
  simp [parseModuleInstancePrefix, parsePrefixLoop_idx, keywordOf, nameOf,
    keyOf, hacc, hP]

/-- C2 (evidence of the code slip). On the traversal for `module["x"].foo`,
the token after the `module` keyword is an index rather than a name: the Go
code records the "must be followed by a module name" diagnostic, but the
`break` in that type `switch` only leaves the switch, not the loop, so the
offending token is consumed as if it were the name and a step with empty name
is appended before parsing continues. The returned prefix is therefore the
one-step `[{name: "", key: none}]` — not the empty prefix that aborting at
the faulty keyword (as the spec describes) would produce. -/
theorem parsePrefixAbort_bug :
    parseModuleInstancePrefix [.root "module", .index (.str "x"), .attr "foo"] =
        ([⟨"", .noKey⟩], [.root "foo"], [diagModuleName]) ∧
      (parseModuleInstancePrefix
          [.root "module", .index (.str "x"), .attr "foo"]).1 ≠ [] := by
  constructor <;> decide

/-! ## Remainder and diagnostic-shape lemmas for the whole-address parser -/

lemma normalizeRemain_length (r : List Traverser) :
    (normalizeRemain r).length = r.length := by
  rcases r with _ | ⟨t, rest⟩
  · rfl
  · cases t <;> rfl

lemma normalizeRemain_root (nm : String) (r : List Traverser) :
    normalizeRemain (.root nm :: r) = .root nm :: r := rfl

lemma parsePrefixLoop_remain_aux (n : Nat) :
    ∀ ts : List Traverser, ts.length ≤ n →
      ∀ (mi : ModuleInstance) (ds : List Diagnostic),
        (parsePrefixLoop ts mi ds).2.1.length ≤ ts.length ∧
          ((parsePrefixLoop ts mi ds).2.1.length = ts.length →
            (parsePrefixLoop ts mi ds).2.1 = ts) := by
  induction n with
  | zero =>
    intro ts hts mi ds
    have h : ts = [] := by cases ts <;> simp_all
    subst h
    simp [parsePrefixLoop_nil]
  | succ n ih =>
    intro ts hts mi ds
    rcases ts with _ | ⟨t0, _ | ⟨r1, _ | ⟨t2, rest3⟩⟩⟩
    · simp [parsePrefixLoop_nil]
    · rw [parsePrefixLoop_one]
      by_cases h : (keywordOf t0 ds).1 = "module" <;> simp [h]
    · rw [parsePrefixLoop_pair]
      by_cases h : (keywordOf t0 ds).1 = "module" <;> simp [h]
    · rcases t2 with n2 | n2 | k
      · rw [parsePrefixLoop_root]
        by_cases h : (keywordOf t0 ds).1 = "module" <;> simp only [h, if_true, if_false]
        · have := ih (Traverser.root n2 :: rest3) (by simp at hts ⊢; omega)
            (mi ++ [⟨(nameOf r1 (keywordOf t0 ds).2).1, .noKey⟩])
            (nameOf r1 (keywordOf t0 ds).2).2
          constructor
          · simp at this ⊢; omega
          · intro hlen
            exfalso
            simp at this hlen ⊢
            omega
        · simp
      · rw [parsePrefixLoop_attr]
        by_cases h : (keywordOf t0 ds).1 = "module" <;> simp only [h, if_true, if_false]
        · have := ih (Traverser.attr n2 :: rest3) (by simp at hts ⊢; omega)
            (mi ++ [⟨(nameOf r1 (keywordOf t0 ds).2).1, .noKey⟩])
            (nameOf r1 (keywordOf t0 ds).2).2
          constructor
          · simp at this ⊢; omega
          · intro hlen
            exfalso
            simp at this hlen ⊢
            omega
        · simp
      · rw [parsePrefixLoop_idx]
        by_cases h : (keywordOf t0 ds).1 = "module" <;> simp only [h, if_true, if_false]
        · have := ih rest3 (by simp at hts ⊢; omega)
            (mi ++ [⟨(nameOf r1 (keywordOf t0 ds).2).1,
                     (keyOf k (nameOf r1 (keywordOf t0 ds).2).2).1⟩])
            (keyOf k (nameOf r1 (keywordOf t0 ds).2).2).2
          constructor
          · simp at this ⊢; omega
          · intro hlen
            exfalso
            simp at this hlen ⊢
            omega
        · simp

lemma keywordOf_diags (t0 : Traverser) (ds : List Diagnostic) :
    ∀ d ∈ (keywordOf t0 ds).2, d ∈ ds ∨ d.summary = "Invalid address operator" := by
  cases t0 with
  | root nm => exact fun d hd => Or.inl hd
  | attr nm => exact fun d hd => Or.inl hd
  | index k =>
    intro d hd
    simp [keywordOf] at hd
    rcases hd with hd | hd
    · exact Or.inl hd
    · subst hd; exact Or.inr rfl

lemma nameOf_diags (r1 : Traverser) (ds : List Diagnostic) :
    ∀ d ∈ (nameOf r1 ds).2, d ∈ ds ∨ d.summary = "Invalid address operator" := by
  cases r1 with
  | attr nm => exact fun d hd => Or.inl hd
  | root nm =>
    intro d hd
    simp [nameOf] at hd
    rcases hd with hd | hd
    · exact Or.inl hd
    · subst hd; exact Or.inr rfl
  | index k =>
    intro d hd
    simp [nameOf] at hd
    rcases hd with hd | hd
    · exact Or.inl hd
    · subst hd; exact Or.inr rfl

lemma keyOf_diags (k : CtyVal) (ds : List Diagnostic) :
    ∀ d ∈ (keyOf k ds).2, d ∈ ds ∨ d.summary = "Invalid address operator" := by
  rcases k with s | a | _
  · exact fun d hd => Or.inl hd
  · rcases a with e | nv
    · intro d hd
      simp [keyOf] at hd
      rcases hd with hd | hd
      · exact Or.inl hd
      · subst hd; exact Or.inr rfl
    · exact fun d hd => Or.inl hd
  · intro d hd
    simp [keyOf] at hd
    rcases hd with hd | hd
    · exact Or.inl hd
    · subst hd; exact Or.inr rfl

lemma parsePrefixLoop_diags_aux (n : Nat) :
    ∀ ts : List Traverser, ts.length ≤ n →
      ∀ (mi : ModuleInstance) (ds : List Diagnostic),
        ∀ d ∈ (parsePrefixLoop ts mi ds).2.2,
          d ∈ ds ∨ d.summary = "Invalid address operator" := by
  induction n with
  | zero =>
    intro ts hts mi ds
    have h : ts = [] := by cases ts <;> simp_all
    subst h
    exact fun d hd => Or.inl hd
  | succ n ih =>
    intro ts hts mi ds
    rcases ts with _ | ⟨t0, _ | ⟨r1, _ | ⟨t2, rest3⟩⟩⟩
    · exact fun d hd => Or.inl hd
    · rw [parsePrefixLoop_one]
      by_cases h : (keywordOf t0 ds).1 = "module" <;> simp only [h, if_true, if_false]
      · intro d hd
        simp only [List.mem_append, List.mem_singleton] at hd
        rcases hd with hd | hd
        · exact keywordOf_diags t0 ds d hd
        · subst hd; exact Or.inr rfl
      · exact keywordOf_diags t0 ds
    · rw [parsePrefixLoop_pair]
      by_cases h : (keywordOf t0 ds).1 = "module" <;> simp only [h, if_true, if_false]
      · intro d hd
        rcases nameOf_diags r1 (keywordOf t0 ds).2 d hd with hd2 | hd2
        · exact keywordOf_diags t0 ds d hd2
        · exact Or.inr hd2
      · exact keywordOf_diags t0 ds
    · rcases t2 with n2 | n2 | k
      · rw [parsePrefixLoop_root]
        by_cases h : (keywordOf t0 ds).1 = "module" <;> simp only [h, if_true, if_false]
        · intro d hd
          rcases ih (Traverser.root n2 :: rest3) (by simp at hts ⊢; omega) _ _ d hd
            with hd2 | hd2
          · rcases nameOf_diags r1 (keywordOf t0 ds).2 d hd2 with hd3 | hd3
            · exact keywordOf_diags t0 ds d hd3
            · exact Or.inr hd3
          · exact Or.inr hd2
        · exact keywordOf_diags t0 ds
      · rw [parsePrefixLoop_attr]
        by_cases h : (keywordOf t0 ds).1 = "module" <;> simp only [h, if_true, if_false]
        · intro d hd
          rcases ih (Traverser.attr n2 :: rest3) (by simp at hts ⊢; omega) _ _ d hd
            with hd2 | hd2
          · rcases nameOf_diags r1 (keywordOf t0 ds).2 d hd2 with hd3 | hd3
            · exact keywordOf_diags t0 ds d hd3
            · exact Or.inr hd3
          · exact Or.inr hd2
        · exact keywordOf_diags t0 ds
      · rw [parsePrefixLoop_idx]
        by_cases h : (keywordOf t0 ds).1 = "module" <;> simp only [h, if_true, if_false]
        · intro d hd
          rcases ih rest3 (by simp at hts ⊢; omega) _ _ d hd with hd2 | hd2
          · rcases keyOf_diags k (nameOf r1 (keywordOf t0 ds).2).2 d hd2 with hd3 | hd3
            · rcases nameOf_diags r1 (keywordOf t0 ds).2 d hd3 with hd4 | hd4
              · exact keywordOf_diags t0 ds d hd4
              · exact Or.inr hd4
            · exact Or.inr hd3
          · exact Or.inr hd2
        · exact keywordOf_diags t0 ds

/-- Every diagnostic the prefix loop itself records carries the summary
"Invalid address operator"; in particular neither whole-address diagnostic of
`parseModuleInstance` can come from the prefix stage. -/
lemma parseModuleInstancePrefix_diags (t : List Traverser) :
    ∀ d ∈ (parseModuleInstancePrefix t).2.2, d.summary = "Invalid address operator" := by
  intro d hd
  rcases parsePrefixLoop_diags_aux t.length t le_rfl [] [] d hd with h | h
  · cases h
  · exact h

end Addrs

namespace Addrs

/-! ## Theorem: whole-address diagnostics (C5) -/

/-- C5. `parseModuleInstance` adds the diagnostic with detail "A module
instance address must begin with \"module.\"." exactly when the remainder is
non-empty and as long as the whole input (no prefix was consumed; for a
root-headed traversal — the only kind the HCL parser produces — such a
remainder IS the whole input, which the last conjunct states), adds the
diagnostic with detail "The module instance address is followed by additional
invalid content." exactly when the remainder is non-empty but shorter than
the input, and adds no diagnostic beyond the prefix stage's when the
remainder is empty. -/
theorem parseModuleInstance_spec (t : List Traverser) :
    (((parseModuleInstancePrefix t).2.1 = [] →
        parseModuleInstance t =
          ((parseModuleInstancePrefix t).1, (parseModuleInstancePrefix t).2.2))
    ∧ (diagMustBegin ∈ (parseModuleInstance t).2 ↔
        ((parseModuleInstancePrefix t).2.1 ≠ [] ∧
          (parseModuleInstancePrefix t).2.1.length = t.length))
    ∧ (diagExtraContent ∈ (parseModuleInstance t).2 ↔
        ((parseModuleInstancePrefix t).2.1 ≠ [] ∧
          (parseModuleInstancePrefix t).2.1.length < t.length))
    ∧ (∀ nm r, t = .root nm :: r →
        (parseModuleInstancePrefix t).2.1.length = t.length →
        (parseModuleInstancePrefix t).2.1 = t)) := by
  obtain ⟨mi, rem0, ds, hp⟩ :
      ∃ mi rem0 ds, parsePrefixLoop t [] [] = (mi, rem0, ds) := ⟨_, _, _, rfl⟩
  have hpre : parseModuleInstancePrefix t = (mi, normalizeRemain rem0, ds) := by
    simp [parseModuleInstancePrefix, hp]
  have hds : ∀ d ∈ ds, d.summary = "Invalid address operator" := by
    intro d hd
    have h2 := parseModuleInstancePrefix_diags t d
    rw [hpre] at h2
    exact h2 hd
  have hnb : diagMustBegin ∉ ds := fun hmem => by
    have h2 := hds _ hmem
    simp [diagMustBegin] at h2
  have hne : diagExtraContent ∉ ds := fun hmem => by
    have h2 := hds _ hmem
    simp [diagExtraContent] at h2
  have hrlen : rem0.length ≤ t.length ∧ (rem0.length = t.length → rem0 = t) := by
    have h2 := parsePrefixLoop_remain_aux t.length t le_rfl [] []
    rw [hp] at h2
    exact h2
  have hnorm := normalizeRemain_length rem0
  simp only [hpre]
  have hconj4 : ∀ nm r, t = Traverser.root nm :: r →
      (normalizeRemain rem0).length = t.length → normalizeRemain rem0 = t := by
    intro nm r ht hlen2
    have hr0 : rem0 = t := hrlen.2 (by omega)
    subst hr0
    rw [ht, normalizeRemain_root]
  by_cases hnil : normalizeRemain rem0 = []
  · have hc0 : ¬((normalizeRemain rem0).length ≠ 0) := by
      simp [hnil]
    have hpm : parseModuleInstance t = (mi, ds) := by
      simp only [parseModuleInstance, hpre]
      rw [if_neg hc0]
    refine ⟨fun _ => by rw [hpm], ?_, ?_, hconj4⟩
    · rw [hpm]
      constructor
      · intro hmem
        exact absurd hmem hnb
      · rintro ⟨hax, _⟩
        exact absurd hnil hax
    · rw [hpm]
      constructor
      · intro hmem
        exact absurd hmem hne
      · rintro ⟨hax, _⟩
        exact absurd hnil hax
  · have h0 : (normalizeRemain rem0).length ≠ 0 := by
      simpa [List.length_eq_zero] using hnil
    by_cases heq : (normalizeRemain rem0).length = t.length
    · have hpm : parseModuleInstance t = (mi, ds ++ [diagMustBegin]) := by
        simp only [parseModuleInstance, hpre]
        rw [if_pos h0, if_pos heq]
      refine ⟨fun hc => absurd hc hnil, ?_, ?_, hconj4⟩
      · rw [hpm]
        simp only [List.mem_append, List.mem_singleton]
        constructor
        · intro _
          exact ⟨hnil, heq⟩
        · intro _
          exact Or.inr trivial
      · rw [hpm]
        simp only [List.mem_append, List.mem_singleton]
        constructor
        · intro hmem
          rcases hmem with hmem | hmem
          · exact absurd hmem hne
          · exact absurd hmem (by decide)
        · rintro ⟨_, hlt⟩
          omega
    · have hlt : (normalizeRemain rem0).length < t.length := by
        have := hrlen.1
        omega
      have hpm : parseModuleInstance t = (mi, ds ++ [diagExtraContent]) := by
        simp only [parseModuleInstance, hpre]
        rw [if_pos h0, if_neg heq]
      refine ⟨fun hc => absurd hc hnil, ?_, ?_, hconj4⟩
      · rw [hpm]
        simp only [List.mem_append, List.mem_singleton]
        constructor
        · intro hmem
          rcases hmem with hmem | hmem
          · exact absurd hmem hnb
          · exact absurd hmem (by decide)
        · rintro ⟨_, heq2⟩
          exact absurd heq2 heq
      · rw [hpm]
        simp only [List.mem_append, List.mem_singleton]
        constructor
        · intro _
          exact ⟨hnil, hlt⟩
        · intro _
          exact Or.inr trivial

/-- Witness for C5: on the traversal for `foo` (no module prefix at all), the
"must begin with module." diagnostic is emitted. -/
theorem parseModuleInstance_spec_witness :
    diagMustBegin ∈ (parseModuleInstance [.root "foo"]).2 :=
  (parseModuleInstance_spec [.root "foo"]).2.1.mpr ⟨by decide, by decide⟩

end Addrs

namespace Terraform

/-! ## Flattening infrastructure -/

/-- Check whether a vertex is an ordinary (not yet wrapped) vertex. -/
def GVertex.isBase : GVertex → Bool
  | .base _ => true
  | .flatWrap _ _ _ => false

/-- The loop body of `FlattenGraph` on the non-aborting paths: remove a
skipping vertex, otherwise replace the vertex by its flat wrap. Equal to
`flattenVisit` whenever the vertex is skippable or wrappable. -/
def flattenStep (path : List String) (ps : String) (g : Graph) (v : GVertex) :
    Graph :=
  if v.skips then g.removeVertex v else g.replaceVertex v (.flatWrap v path ps)

/-- The fate of a vertex value `x` under flattening of the snapshot `L`: a
member of the snapshot is dropped when it skips and wrapped otherwise, and any
other value is left alone. -/
def vertexFate (L : List GVertex) (path : List String) (ps : String)
    (x : GVertex) : Option GVertex :=
  if x ∈ L then (if x.skips then none else some (.flatWrap x path ps)) else some x

/-- The fate of an edge: it survives iff both endpoints survive, with the
endpoints replaced by their fates. -/
def edgeFate (L : List GVertex) (path : List String) (ps : String)
    (e : GVertex × GVertex) : Option (GVertex × GVertex) :=
  match vertexFate L path ps e.1, vertexFate L path ps e.2 with
  | some a, some b => some (a, b)
  | _, _ => none

lemma filterMap_some_aux {α : Type} :
    ∀ E : List α, E.filterMap some = E := by
  intro E
  induction E with
  | nil => rfl
  | cons x xs ih => simp [List.filterMap_cons, ih]

lemma filterMap_filter_aux {α β : Type} (p : α → Bool) (f : α → Option β) :
    ∀ l : List α,
      (l.filter p).filterMap f =
        l.filterMap (fun a => if p a then f a else none) := by
  intro l
  induction l with
  | nil => rfl
  | cons x xs ih =>
    by_cases h : p x <;>
      simp [List.filter_cons, h, List.filterMap_cons, ih]

lemma filterMap_ite_aux {α β : Type} (p : α → Bool) (f : α → β) :
    ∀ l : List α,
      l.filterMap (fun a => if p a then none else some (f a)) =
        (l.filter (fun a => !p a)).map f := by
  intro l
  induction l with
  | nil => rfl
  | cons x xs ih =>
    by_cases h : p x <;>
      simp [List.filter_cons, h, List.filterMap_cons, ih]

lemma exceptOk_bind {e a b : Type} (x : a) (f : a → Except e b) :
    (Except.ok x >>= f) = f x := rfl

lemma foldlM_flattenVisit_ok (p : List String) (ps : String) :
    ∀ (L : List GVertex) (acc : Graph),
      (∀ v ∈ L, v.skips = true ∨ v.isWrappable = true) →
      L.foldlM (flattenVisit p ps) acc =
        .ok (L.foldl (flattenStep p ps) acc) := by
  intro L
  induction L with
  | nil => intro acc _; rfl
  | cons v L' ih =>
    intro acc hgood
    simp only [List.foldlM_cons, List.foldl_cons]
    by_cases hs : v.skips = true
    · have h1 : flattenVisit p ps acc v = .ok (acc.removeVertex v) := by
        simp [flattenVisit, hs]
      have h2 : flattenStep p ps acc v = acc.removeVertex v := by
        simp [flattenStep, hs]
      rw [h1, exceptOk_bind, h2]
      exact ih _ (fun u hu => hgood u (List.mem_cons_of_mem _ hu))
    · rcases hgood v (List.mem_cons_self _ _) with hv | hv
      · exact absurd hv hs
      · have h1 : flattenVisit p ps acc v =
            .ok (acc.replaceVertex v (.flatWrap v p ps)) := by
          simp [flattenVisit, hs, hv]
        have h2 : flattenStep p ps acc v =
            acc.replaceVertex v (.flatWrap v p ps) := by
          simp [flattenStep, hs]
        rw [h1, exceptOk_bind, h2]
        exact ih _ (fun u hu => hgood u (List.mem_cons_of_mem _ hu))

lemma foldlM_flattenVisit_error (p : List String) (ps : String) :
    ∀ (L : List GVertex) (acc : Graph),
      ((∃ msg, L.foldlM (flattenVisit p ps) acc = .error msg) ↔
        ∃ v ∈ L, v.skips = false ∧ v.isWrappable = false) := by
  intro L
  induction L with
  | nil =>
    intro acc
    simp [List.foldlM_nil, pure, Except.pure]
  | cons v L' ih =>
    intro acc
    simp only [List.foldlM_cons]
    by_cases hs : v.skips = true
    · have h1 : flattenVisit p ps acc v = .ok (acc.removeVertex v) := by
        simp [flattenVisit, hs]
      rw [h1, exceptOk_bind, ih]
      constructor
      · rintro ⟨u, hu, hbad⟩
        exact ⟨u, List.mem_cons_of_mem _ hu, hbad⟩
      · rintro ⟨u, hu, hbad⟩
        rcases List.mem_cons.mp hu with rfl | hu
        · rw [hs] at hbad
          cases hbad.1
        · exact ⟨u, hu, hbad⟩
    · by_cases hw : v.isWrappable = true
      · have h1 : flattenVisit p ps acc v =
            .ok (acc.replaceVertex v (.flatWrap v p ps)) := by
          simp [flattenVisit, hs, hw]
        rw [h1, exceptOk_bind, ih]
        constructor
        · rintro ⟨u, hu, hbad⟩
          exact ⟨u, List.mem_cons_of_mem _ hu, hbad⟩
        · rintro ⟨u, hu, hbad⟩
          rcases List.mem_cons.mp hu with rfl | hu
          · rw [hw] at hbad
            cases hbad.2
          · exact ⟨u, hu, hbad⟩
      · have h1 : flattenVisit p ps acc v =
            .error ("unwrappable node: " ++ v.vertexName) := by
          simp [flattenVisit, hs, hw]
        rw [h1]
        have hbind : ((Except.error ("unwrappable node: " ++ v.vertexName) :
            Except String Graph) >>= fun acc' =>
              L'.foldlM (flattenVisit p ps) acc') =
            .error ("unwrappable node: " ++ v.vertexName) := rfl
        rw [hbind]
        simp only [Bool.not_eq_true] at hs hw
        exact iff_of_true ⟨_, rfl⟩ ⟨v, List.mem_cons_self _ _, hs, hw⟩

lemma flattenFold_path (p : List String) (ps : String) :
    ∀ (L : List GVertex) (g : Graph),
      (L.foldl (flattenStep p ps) g).path = g.path := by
  intro L
  induction L with
  | nil => intro g; rfl
  | cons v L' ih =>
    intro g
    rw [List.foldl_cons, ih]
    by_cases hs : v.skips = true <;>
      simp [flattenStep, hs, Graph.removeVertex, Graph.replaceVertex]

end Terraform

namespace Terraform

lemma base_ne_of_isBase {v w : GVertex} (hv : v.isBase = true)
    (hw : w.isBase = false) : w ≠ v := by
  intro h
  rw [h, hv] at hw
  cases hw

lemma filter_ne_eq_self {α : Type} [DecidableEq α] :
    ∀ (l : List α) (v : α), v ∉ l →
      l.filter (fun x => decide (x ≠ v)) = l := by
  intro l v
  induction l with
  | nil => intro _; rfl
  | cons a l' ih =>
    intro h
    rw [List.filter_cons,
      if_pos (by
        simp only [decide_eq_true_eq]
        intro he
        subst he
        exact h (List.mem_cons_self _ _)),
      ih (fun hm => h (List.mem_cons_of_mem _ hm))]

lemma map_ite_eq_self {α : Type} [DecidableEq α] :
    ∀ (l : List α) (v w : α), v ∉ l →
      l.map (fun x => if x = v then w else x) = l := by
  intro l v w
  induction l with
  | nil => intro _; rfl
  | cons a l' ih =>
    intro h
    simp only [List.map_cons]
    rw [if_neg (by
        intro he
        subst he
        exact h (List.mem_cons_self _ _)),
      ih (fun hm => h (List.mem_cons_of_mem _ hm))]

lemma flattenFold_vertices (p : List String) (ps : String) :
    ∀ (L W : List GVertex) (g : Graph),
      (∀ v ∈ L, v.isBase = true) →
      (∀ w ∈ W, w.isBase = false) →
      L.Nodup →
      g.vertices = W ++ L →
      (L.foldl (flattenStep p ps) g).vertices =
        W ++ L.filterMap
          (fun v => if v.skips then none else some (.flatWrap v p ps)) := by
  intro L
  induction L with
  | nil =>
    intro W g _ _ _ hg
    simpa using hg
  | cons v L' ih =>
    intro W g hbase hwrap hnd hg
    have hv : v.isBase = true := hbase v (List.mem_cons_self _ _)
    have hvW : v ∉ W := fun hm => base_ne_of_isBase hv (hwrap v hm) rfl
    have hvL' : v ∉ L' := (List.nodup_cons.mp hnd).1
    have hbase' : ∀ u ∈ L', u.isBase = true :=
      fun u hu => hbase u (List.mem_cons_of_mem _ hu)
    have hnd' : L'.Nodup := (List.nodup_cons.mp hnd).2
    by_cases hs : v.skips = true
    · have hstep : flattenStep p ps g v = g.removeVertex v := by
        simp [flattenStep, hs]
      have hverts : (g.removeVertex v).vertices = W ++ L' := by
        simp only [Graph.removeVertex, hg, List.filter_append]
        rw [filter_ne_eq_self W v hvW, List.filter_cons,
          if_neg (by simp), filter_ne_eq_self L' v hvL']
      rw [List.foldl_cons, hstep, ih W _ hbase' hwrap hnd' hverts]
      simp [List.filterMap_cons, hs]
    · have hstep : flattenStep p ps g v =
          g.replaceVertex v (.flatWrap v p ps) := by
        simp [flattenStep, hs]
      have hverts : (g.replaceVertex v (.flatWrap v p ps)).vertices =
          (W ++ [GVertex.flatWrap v p ps]) ++ L' := by
        simp only [Graph.replaceVertex, hg, List.map_append, List.map_cons]
        rw [map_ite_eq_self W v _ hvW, map_ite_eq_self L' v _ hvL']
        simp
      have hwrap' : ∀ w ∈ W ++ [GVertex.flatWrap v p ps], w.isBase = false := by
        intro w hw
        rcases List.mem_append.mp hw with hw | hw
        · exact hwrap w hw
        · rcases List.mem_singleton.mp hw with rfl
          rfl
      rw [List.foldl_cons, hstep,
        ih (W ++ [GVertex.flatWrap v p ps]) _ hbase' hwrap' hnd' hverts]
      simp [List.filterMap_cons, hs, List.append_assoc]

lemma vertexFate_cons_ne (v : GVertex) (L : List GVertex) (p : List String)
    (ps : String) (x : GVertex) (h : x ≠ v) :
    vertexFate (v :: L) p ps x = vertexFate L p ps x := by
  by_cases hx : x ∈ L <;> simp [vertexFate, List.mem_cons, h, hx]

lemma vertexFate_not_mem (L : List GVertex) (p : List String) (ps : String)
    (x : GVertex) (h : x ∉ L) : vertexFate L p ps x = some x := by
  simp [vertexFate, h]

lemma flattenFold_edges (p : List String) (ps : String) :
    ∀ (L : List GVertex) (g : Graph),
      (∀ v ∈ L, v.isBase = true) →
      (L.foldl (flattenStep p ps) g).edges =
        g.edges.filterMap (edgeFate L p ps) := by
  intro L
  induction L with
  | nil =>
    intro g _
    simp only [List.foldl_nil]
    rw [List.filterMap_congr (g := some)]
    · exact (filterMap_some_aux g.edges).symm
    · intro e _
      simp [edgeFate, vertexFate]
  | cons v L' ih =>
    intro g hbase
    have hv : v.isBase = true := hbase v (List.mem_cons_self _ _)
    have hL' : ∀ u ∈ L', u.isBase = true :=
      fun u hu => hbase u (List.mem_cons_of_mem _ hu)
    have hwrapmem : GVertex.flatWrap v p ps ∉ L' := by
      intro hmem
      have := hL' _ hmem
      cases this
    by_cases hs : v.skips = true
    · have hstep : flattenStep p ps g v = g.removeVertex v := by
        simp [flattenStep, hs]
      rw [List.foldl_cons, hstep, ih _ hL']
      simp only [Graph.removeVertex]
      rw [filterMap_filter_aux]
      apply List.filterMap_congr
      intro e _
      by_cases h1 : e.1 = v
      · rw [if_neg (by simp [h1])]
        have hf : vertexFate (v :: L') p ps e.1 = none := by
          simp [vertexFate, h1, hs]
        simp [edgeFate, hf]
      · by_cases h2 : e.2 = v
        · rw [if_neg (by simp [h2])]
          have hf : vertexFate (v :: L') p ps e.2 = none := by
            simp [vertexFate, h2, hs]
          simp [edgeFate, hf]
        · rw [if_pos (by simp [h1, h2])]
          rw [edgeFate, edgeFate,
            vertexFate_cons_ne v L' p ps e.1 h1,
            vertexFate_cons_ne v L' p ps e.2 h2]
    · have hstep : flattenStep p ps g v =
          g.replaceVertex v (.flatWrap v p ps) := by
        simp [flattenStep, hs]
      rw [List.foldl_cons, hstep, ih _ hL']
      simp only [Graph.replaceVertex]
      rw [List.filterMap_map]
      apply List.filterMap_congr
      intro e _
      have hfate : ∀ x : GVertex,
          vertexFate L' p ps (if x = v then GVertex.flatWrap v p ps else x) =
            vertexFate (v :: L') p ps x := by
        intro x
        by_cases hx : x = v
        · rw [if_pos hx, hx]
          rw [vertexFate_not_mem L' p ps _ hwrapmem]
          simp [vertexFate, hs]
        · rw [if_neg hx, vertexFate_cons_ne v L' p ps x hx]
      show edgeFate L' p ps
          (if e.1 = v then GVertex.flatWrap v p ps else e.1,
           if e.2 = v then GVertex.flatWrap v p ps else e.2) =
        edgeFate (v :: L') p ps e
      rw [edgeFate, edgeFate]
      simp only
      rw [hfate e.1, hfate e.2]

end Terraform

namespace Terraform

lemma filterMap_pos_aux {α β : Type} (p : α → Bool) (f : α → β) :
    ∀ l : List α,
      l.filterMap (fun a => if p a then some (f a) else none) =
        (l.filter p).map f := by
  intro l
  induction l with
  | nil => rfl
  | cons x xs ih =>
    by_cases h : p x <;>
      simp [List.filter_cons, h, List.filterMap_cons, ih]

/-- Closed form of a successful flatten: the path is kept, every vertex is
dropped (when it skips) or wrapped, and every edge follows the fates of its
endpoints. -/
lemma flattenGraph_ok_spec (g : Graph)
    (hbase : ∀ v ∈ g.vertices, v.isBase = true)
    (hgood : ∀ v ∈ g.vertices, v.skips = true ∨ v.isWrappable = true)
    (hnd : g.vertices.Nodup) :
    FlattenGraph g = .ok
      { path := g.path,
        vertices := g.vertices.filterMap
          (fun v => if v.skips then none
            else some (.flatWrap v g.path (modulePathString g.path))),
        edges := g.edges.filterMap
          (edgeFate g.vertices g.path (modulePathString g.path)) } := by
  simp only [FlattenGraph]
  rw [foldlM_flattenVisit_ok _ _ _ _ hgood]
  congr 1
  refine Graph.ext ?_ ?_ ?_
  · exact flattenFold_path _ _ g.vertices g
  · have h := flattenFold_vertices g.path (modulePathString g.path)
      g.vertices [] g hbase (by simp) hnd (by simp)
    simpa using h
  · exact flattenFold_edges _ _ g.vertices g hbase

/-- What a successful flatten does to each surviving vertex: it is the wrap of
a retained original vertex and its name is the path string, a dot, then the
original name. -/
lemma flatten_vertex_src (g : Graph)
    (hbase : ∀ v ∈ g.vertices, v.isBase = true)
    (hgood : ∀ v ∈ g.vertices, v.skips = true ∨ v.isWrappable = true)
    (hnd : g.vertices.Nodup)
    (g' : Graph) (hok : FlattenGraph g = .ok g') :
    ∀ w ∈ g'.vertices, ∃ v ∈ g.vertices, v.skips = false ∧
      w = .flatWrap v g.path (modulePathString g.path) ∧
      w.vertexName = modulePathString g.path ++ "." ++ v.vertexName := by
  intro w hw
  rw [flattenGraph_ok_spec g hbase hgood hnd] at hok
  injection hok with h
  subst h
  rw [List.mem_filterMap] at hw
  obtain ⟨v, hv, hfv⟩ := hw
  by_cases hs : v.skips = true
  · rw [if_pos hs] at hfv
    cases hfv
  · rw [if_neg hs] at hfv
    injection hfv with hw2
    refine ⟨v, hv, by simpa using hs, hw2.symm, ?_⟩
    rw [← hw2]
    rfl

/-- Example vertices and subgraphs used to instantiate the flattening
theorems. -/
def webVertex : GVertex := .base ⟨0, "aws_instance.web", false, false, true⟩

def skipVertex : GVertex := .base ⟨1, "root", true, true, true⟩

def badVertex : GVertex := .base ⟨2, "boom", false, false, false⟩

def netExample : Graph := ⟨["root", "net"], [webVertex, skipVertex], []⟩

def frameExample : Graph :=
  ⟨["root", "net"], [webVertex, skipVertex],
   [(webVertex, skipVertex), (webVertex, webVertex)]⟩

def badExample : Graph := ⟨["root"], [webVertex, badVertex], []⟩

def rootExample : Graph := ⟨["root"], [webVertex], []⟩

/-- C7. `FlattenGraph` computes the path string by dot-joining the literal
`module` with each step name along the subgraph's path excluding the root
segment (`modulePathString`), and every retained vertex becomes a flat wrap
whose externally visible name is `<pathString>.<originalName>`; in particular
a subgraph at path `[root, net]` whose retained vertex is named
`aws_instance.web` flattens that vertex's name to
`module.net.aws_instance.web`. -/
theorem flatten_naming_spec (g : Graph)
    (hbase : ∀ v ∈ g.vertices, v.isBase = true)
    (hgood : ∀ v ∈ g.vertices, v.skips = true ∨ v.isWrappable = true)
    (hnd : g.vertices.Nodup) :
    (∀ g', FlattenGraph g = .ok g' →
      ∀ w ∈ g'.vertices, ∃ v ∈ g.vertices, v.skips = false ∧
        w = .flatWrap v g.path (modulePathString g.path) ∧
        w.vertexName = modulePathString g.path ++ "." ++ v.vertexName)
    ∧ modulePathString ("root" :: g.path.drop 1) =
        String.intercalate "."
          ((g.path.drop 1).flatMap (fun p => ["module", p]))
    ∧ (FlattenGraph netExample).map
        (fun h => h.vertices.map GVertex.vertexName) =
        .ok ["module.net.aws_instance.web"] := by
  refine ⟨fun g' hok => flatten_vertex_src g hbase hgood hnd g' hok, rfl, ?_⟩
  decide

/-- Witness for C7 at the concrete subgraph `netExample`. -/
theorem flatten_naming_spec_witness :
    (FlattenGraph netExample).map
        (fun h => h.vertices.map GVertex.vertexName) =
      .ok ["module.net.aws_instance.web"] :=
  (flatten_naming_spec netExample (by decide) (by decide) (by decide)).2.2

/-- C8. Flattening removes exactly the vertices that skip (those implementing
the skippable capability with `FlattenSkip()` true) together with their
edges; every other vertex is replaced in place by its flat wrap, so the edges
among retained vertices are exactly the original ones with wrapped endpoints,
and in particular their count is unchanged. -/
theorem flatten_frame_spec (g : Graph)
    (hbase : ∀ v ∈ g.vertices, v.isBase = true)
    (hgood : ∀ v ∈ g.vertices, v.skips = true ∨ v.isWrappable = true)
    (hnd : g.vertices.Nodup)
    (hedge : ∀ e ∈ g.edges, e.1 ∈ g.vertices ∧ e.2 ∈ g.vertices) :
    ∃ g', FlattenGraph g = .ok g' ∧
      g'.vertices = (g.vertices.filter (fun v => !v.skips)).map
        (fun v => .flatWrap v g.path (modulePathString g.path)) ∧
      g'.edges = (g.edges.filter (fun e => !e.1.skips && !e.2.skips)).map
        (fun e => (GVertex.flatWrap e.1 g.path (modulePathString g.path),
                   GVertex.flatWrap e.2 g.path (modulePathString g.path))) ∧
      g'.edges.length =
        (g.edges.filter (fun e => !e.1.skips && !e.2.skips)).length := by
  refine ⟨_, flattenGraph_ok_spec g hbase hgood hnd, ?_, ?_, ?_⟩
  · exact filterMap_ite_aux _ _ g.vertices
  · have hpt : ∀ e ∈ g.edges,
        edgeFate g.vertices g.path (modulePathString g.path) e =
          if (!e.1.skips && !e.2.skips) then
            some (GVertex.flatWrap e.1 g.path (modulePathString g.path),
                  GVertex.flatWrap e.2 g.path (modulePathString g.path))
          else none := by
      intro e he
      obtain ⟨h1, h2⟩ := hedge e he
      by_cases hs1 : e.1.skips = true
      · simp [edgeFate, vertexFate, h1, h2, hs1]
      · by_cases hs2 : e.2.skips = true <;>
          simp [edgeFate, vertexFate, h1, h2, hs1, hs2]
    show (g.edges.filterMap (edgeFate g.vertices g.path (modulePathString g.path))) = _
    rw [List.filterMap_congr hpt, filterMap_pos_aux]
  · show (g.edges.filterMap (edgeFate g.vertices g.path (modulePathString g.path))).length = _
    have hpt : ∀ e ∈ g.edges,
        edgeFate g.vertices g.path (modulePathString g.path) e =
          if (!e.1.skips && !e.2.skips) then
            some (GVertex.flatWrap e.1 g.path (modulePathString g.path),
                  GVertex.flatWrap e.2 g.path (modulePathString g.path))
          else none := by
      intro e he
      obtain ⟨h1, h2⟩ := hedge e he
      by_cases hs1 : e.1.skips = true
      · simp [edgeFate, vertexFate, h1, h2, hs1]
      · by_cases hs2 : e.2.skips = true <;>
          simp [edgeFate, vertexFate, h1, h2, hs1, hs2]
    rw [List.filterMap_congr hpt, filterMap_pos_aux, List.length_map]

/-- Witness for C8 at a concrete subgraph with one skipping vertex and two
edges, one of which touches the skipping vertex. -/
theorem flatten_frame_spec_witness :
    ∃ g', FlattenGraph frameExample = .ok g' ∧
      g'.vertices = (frameExample.vertices.filter (fun v => !v.skips)).map
        (fun v => .flatWrap v frameExample.path
          (modulePathString frameExample.path)) ∧
      g'.edges = (frameExample.edges.filter
          (fun e => !e.1.skips && !e.2.skips)).map
        (fun e => (GVertex.flatWrap e.1 frameExample.path
            (modulePathString frameExample.path),
          GVertex.flatWrap e.2 frameExample.path
            (modulePathString frameExample.path))) ∧
      g'.edges.length = (frameExample.edges.filter
          (fun e => !e.1.skips && !e.2.skips)).length :=
  flatten_frame_spec frameExample (by decide) (by decide) (by decide) (by decide)

/-- C9. `FlattenGraph` aborts fatally (the Go `panic`, modelled as the error
result) exactly when some vertex of the subgraph neither skips nor implements
the wrappable capability; it never silently skips such a vertex. -/
theorem flatten_abort_spec (g : Graph) :
    (∃ msg, FlattenGraph g = .error msg) ↔
      ∃ v ∈ g.vertices, v.skips = false ∧ v.isWrappable = false := by
  simp only [FlattenGraph]
  exact foldlM_flattenVisit_error g.path (modulePathString g.path) g.vertices g

/-- Witness for C9: a subgraph containing a non-skippable, non-wrappable
vertex makes `FlattenGraph` abort. -/
theorem flatten_abort_spec_witness :
    ∃ msg, FlattenGraph badExample = .error msg :=
  (flatten_abort_spec badExample).mpr ⟨badVertex, by decide, by decide, by decide⟩

/-- C10. When the subgraph's path is only the root element, the computed path
string is empty and every retained vertex's flattened name is the empty
string, a dot, then its original name — a leading-dot name — because the
flat-wrap `Name` prepends the path string unconditionally. -/
theorem flatten_rootpath_spec (g : Graph)
    (hpath : g.path.length = 1)
    (hbase : ∀ v ∈ g.vertices, v.isBase = true)
    (hgood : ∀ v ∈ g.vertices, v.skips = true ∨ v.isWrappable = true)
    (hnd : g.vertices.Nodup) :
    modulePathString g.path = "" ∧
    ∀ g', FlattenGraph g = .ok g' →
      ∀ w ∈ g'.vertices, ∃ v ∈ g.vertices, v.skips = false ∧
        w.vertexName = "." ++ v.vertexName := by
  have hps : modulePathString g.path = "" := by
    obtain ⟨a, ha⟩ := List.length_eq_one.mp hpath
    rw [ha]
    rfl
  refine ⟨hps, ?_⟩
  intro g' hok w hw
  obtain ⟨v, hv, hskip, _, hname⟩ :=
    flatten_vertex_src g hbase hgood hnd g' hok w hw
  refine ⟨v, hv, hskip, ?_⟩
  rw [hname, hps]
  rfl

/-- Witness for C10 at a concrete subgraph whose path is just the root. -/
theorem flatten_rootpath_spec_witness :
    modulePathString rootExample.path = "" ∧
    ∀ g', FlattenGraph rootExample = .ok g' →
      ∀ w ∈ g'.vertices, ∃ v ∈ rootExample.vertices, v.skips = false ∧
        w.vertexName = "." ++ v.vertexName :=
  flatten_rootpath_spec rootExample (by decide) (by decide) (by decide) (by decide)

end Terraform

namespace Addrs

/-! ## Round trip (C3): rendering and re-parsing

The definitions below name the character and token shapes produced by
`ModuleInstance.String` and consumed by the lexer and the prefix parser, and
`LexOk cs ts` says the lexer turns the characters `cs` into the tokens `ts`
whenever it is given at least `cs.length` fuel. -/

/-- Key rendering as it appears inside `ModuleInstance.String`. -/
def keyChars (k : InstanceKey) : List Char :=
  (if k ≠ InstanceKey.noKey then k.render else "").data

/-- Character shape of one non-leading step: `.module.<name><key>`. -/
def innerChars (u : ModuleInstanceStep) : List Char :=
  "module".data ++ '.' :: (u.name.data ++ keyChars u.instanceKey)

/-- Characters of all the non-leading steps. -/
def tailChars (m : ModuleInstance) : List Char :=
  m.flatMap (fun u => '.' :: innerChars u)

/-- Index tokens produced by the lexer for one key. -/
def keyToks : InstanceKey → List Traverser
  | .noKey => []
  | .stringKey s => [.index (.str s)]
  | .intKey n => [.index (.num (.ok n))]

/-- Tokens of all the non-leading steps. -/
def tailToks (m : ModuleInstance) : List Traverser :=
  m.flatMap (fun u => .attr "module" :: .attr u.name :: keyToks u.instanceKey)

/-- A name the lexer reads back exactly: a nonempty identifier. -/
def validIdent (s : String) : Bool :=
  match s.data with
  | [] => false
  | c :: cs => isIdentStart c && cs.all isIdentCont

/-- A step the renderer writes in a form the lexer and parser read back
exactly: an identifier name, string keys free of the quote character, and
non-negative integer keys. -/
def validStep (s : ModuleInstanceStep) : Bool :=
  validIdent s.name &&
    (match s.instanceKey with
     | .noKey => true
     | .stringKey k => k.data.all (fun c => c ≠ '"')
     | .intKey n => decide (0 ≤ n))

/-- Numeric value of a digit list, most significant first. -/
def digitsValNat (l : List Nat) : Nat :=
  l.foldl (fun a d => a * 10 + d) 0

/-- The lexer reads the characters `cs` as the tokens `ts` under any
sufficient fuel. -/
def LexOk (cs : List Char) (ts : List Traverser) : Prop :=
  ∀ f, cs.length ≤ f → lexRest f cs = .ok ts

lemma foldl_digits_append (l : List Nat) (d : Nat) :
    ∀ a, (l ++ [d]).foldl (fun a d => a * 10 + d) a =
      (l.foldl (fun a d => a * 10 + d) a) * 10 + d := by
  intro a
  rw [List.foldl_append]
  rfl

lemma natDigits_spec :
    ∀ n : Nat, (∀ d ∈ natDigits n, d < 10) ∧ natDigits n ≠ [] ∧
      digitsValNat (natDigits n) = n := by
  intro n
  induction n using Nat.strong_induction_on with
  | _ n ih =>
    by_cases h : n < 10
    · rw [natDigits, dif_pos h]
      refine ⟨?_, by simp, ?_⟩
      · intro d hd
        rcases List.mem_singleton.mp hd with rfl
        exact h
      · simp [digitsValNat]
    · have hdiv : n / 10 < n := Nat.div_lt_self (by omega) (by omega)
      obtain ⟨ihd, ihne, ihval⟩ := ih (n / 10) hdiv
      rw [natDigits, dif_neg h]
      refine ⟨?_, by simp, ?_⟩
      · intro d hd
        rcases List.mem_append.mp hd with hd | hd
        · exact ihd d hd
        · rcases List.mem_singleton.mp hd with rfl
          omega
      · rw [digitsValNat, foldl_digits_append]
        have : (natDigits (n / 10)).foldl (fun a d => a * 10 + d) 0 = n / 10 := ihval
        rw [this]
        omega

lemma digitChar_spec : ∀ d, d < 10 →
    (Nat.digitChar d).isDigit = true ∧ (Nat.digitChar d).toNat - 48 = d ∧
      Nat.digitChar d ≠ '"' ∧ isIdentCont (Nat.digitChar d) = true := by
  decide

lemma foldl_congr_mem {α β : Type} (f g : β → α → β) :
    ∀ (l : List α), (∀ x ∈ l, ∀ b, f b x = g b x) →
      ∀ a, l.foldl f a = l.foldl g a := by
  intro l
  induction l with
  | nil => intro _ _; rfl
  | cons x xs ih =>
    intro h a
    rw [List.foldl_cons, List.foldl_cons, h x (List.mem_cons_self _ _) a]
    exact ih (fun y hy => h y (List.mem_cons_of_mem _ hy)) _

lemma natChars_spec (n : Nat) :
    natChars n ≠ [] ∧ (∀ c ∈ natChars n, c.isDigit = true) ∧
      digitsVal (natChars n) = n := by
  obtain ⟨hd, hne, hval⟩ := natDigits_spec n
  refine ⟨by simpa [natChars] using hne, ?_, ?_⟩
  · intro c hc
    rw [natChars, List.mem_map] at hc
    obtain ⟨d, hdm, rfl⟩ := hc
    exact (digitChar_spec d (hd d hdm)).1
  · rw [digitsVal, natChars, List.foldl_map]
    rw [foldl_congr_mem _ (fun a d => a * 10 + d) (natDigits n)
      (fun d hdm b => by rw [(digitChar_spec d (hd d hdm)).2.1]) 0]
    exact hval

end Addrs

namespace Addrs

lemma takeWhile_append_of {p : Char → Bool} :
    ∀ (l r : List Char), (∀ c ∈ l, p c = true) →
      (∀ c, r.head? = some c → p c = false) →
      (l ++ r).takeWhile p = l := by
  intro l
  induction l with
  | nil =>
    intro r _ hr
    cases r with
    | nil => rfl
    | cons c r' =>
      simp [List.takeWhile_cons, hr c rfl]
  | cons a l' ih =>
    intro r hl hr
    simp only [List.cons_append, List.takeWhile_cons,
      hl a (List.mem_cons_self _ _)]
    rw [ih r (fun c hc => hl c (List.mem_cons_of_mem _ hc)) hr]
    simp

lemma dropWhile_append_of {p : Char → Bool} :
    ∀ (l r : List Char), (∀ c ∈ l, p c = true) →
      (∀ c, r.head? = some c → p c = false) →
      (l ++ r).dropWhile p = r := by
  intro l
  induction l with
  | nil =>
    intro r _ hr
    cases r with
    | nil => rfl
    | cons c r' =>
      simp [List.dropWhile_cons, hr c rfl]
  | cons a l' ih =>
    intro r hl hr
    simp only [List.cons_append, List.dropWhile_cons,
      hl a (List.mem_cons_self _ _)]
    rw [ih r (fun c hc => hl c (List.mem_cons_of_mem _ hc)) hr]
    simp

lemma span_append_of {p : Char → Bool} (l r : List Char)
    (hl : ∀ c ∈ l, p c = true)
    (hr : ∀ c, r.head? = some c → p c = false) :
    (l ++ r).span p = (l, r) := by
  rw [List.span_eq_take_drop, takeWhile_append_of l r hl hr,
    dropWhile_append_of l r hl hr]

lemma isIdentStart_cont : ∀ c, isIdentStart c = true → isIdentCont c = true := by
  intro c h
  simp only [isIdentStart, Bool.or_eq_true, decide_eq_true_eq] at h
  rcases h with h | h
  · simp [isIdentCont, Char.isAlphanum, h]
  · subst h
    rfl

lemma validIdent_all (n : String) (hn : validIdent n = true) :
    ∀ c ∈ n.data, isIdentCont c = true := by
  rcases hd : n.data with _ | ⟨c, cs⟩
  · simp
  · rw [validIdent, hd] at hn
    simp only [Bool.and_eq_true, List.all_eq_true] at hn
    intro x hx
    rcases List.mem_cons.mp hx with rfl | hx
    · exact isIdentStart_cont x hn.1
    · exact hn.2 x hx

lemma takeIdent_append (n : String) (r : List Char)
    (hn : validIdent n = true)
    (hr : ∀ c, r.head? = some c → isIdentCont c = false) :
    takeIdent (n.data ++ r) = some (n, r) := by
  obtain ⟨c, cs, hc⟩ : ∃ c cs, n.data = c :: cs := by
    rcases hd : n.data with _ | ⟨c, cs⟩
    · rw [validIdent, hd] at hn
      cases hn
    · exact ⟨c, cs, rfl⟩
  have hstart : isIdentStart c = true := by
    rw [validIdent, hc] at hn
    exact ((Bool.and_eq_true _ _).mp hn).1
  have hall : ∀ x ∈ n.data, isIdentCont x = true := validIdent_all n hn
  rw [hc]
  simp only [List.cons_append]
  simp only [takeIdent, hstart, if_true]
  have hspan : (c :: (cs ++ r)).span isIdentCont = (c :: cs, r) := by
    have h2 := span_append_of (c :: cs) r
      (fun x hx => hall x (by rw [hc]; exact hx)) hr
    simpa using h2
  rw [hspan]
  rw [← hc]

end Addrs

namespace Addrs

lemma lexOk_nil : LexOk [] [] := by
  intro f _
  cases f <;> rfl

lemma lexOk_dot (nm : String) (r : List Char) (ts : List Traverser)
    (hnm : validIdent nm = true)
    (hr : ∀ c, r.head? = some c → isIdentCont c = false)
    (h : LexOk r ts) :
    LexOk ('.' :: (nm.data ++ r)) (.attr nm :: ts) := by
  intro f hf
  simp only [List.length_cons] at hf
  obtain ⟨f1, rfl⟩ : ∃ f1, f = f1 + 1 := ⟨f - 1, by omega⟩
  simp only [lexRest]
  rw [takeIdent_append nm r hnm hr]
  dsimp only
  rw [h f1 (by
    have := List.length_append nm.data r
    omega)]
  rfl

lemma lexRest_bracket_eq (f : Nat) (c : Char) (hc : c ≠ '"') (cs : List Char) :
    lexRest (f + 1) ('[' :: c :: cs) =
      (if ((c :: cs).span Char.isDigit).1 = [] then
        .error "index must be a quoted string or an integer"
      else
        match ((c :: cs).span Char.isDigit).2 with
        | ']' :: cs3 =>
          (lexRest f cs3).map
            (Traverser.index
              (.num (.ok (Int.ofNat (digitsVal ((c :: cs).span Char.isDigit).1)))) :: ·)
        | _ => .error "unclosed index bracket") := by
  simp only [lexRest]
  split
  · rename_i cs2 heq
    cases heq
    exact absurd rfl hc
  · rfl

lemma keyChars_string (s : String) :
    keyChars (.stringKey s) = '[' :: '"' :: (s.data ++ ['"', ']']) := by
  simp [keyChars, InstanceKey.render, String.data_append]

lemma keyChars_int (n : Int) :
    keyChars (.intKey n) = '[' :: (intChars n ++ [']']) := by
  simp [keyChars, InstanceKey.render, String.data_append]

lemma keyChars_none : keyChars .noKey = [] := rfl

lemma lexOk_strkey (s : String) (r : List Char) (ts : List Traverser)
    (hs : ∀ c ∈ s.data, c ≠ '"') (h : LexOk r ts) :
    LexOk ('[' :: '"' :: (s.data ++ '"' :: ']' :: r)) (.index (.str s) :: ts) := by
  intro f hf
  simp only [List.length_cons] at hf
  obtain ⟨f1, rfl⟩ : ∃ f1, f = f1 + 1 := ⟨f - 1, by omega⟩
  simp only [lexRest]
  have hspan : (s.data ++ '"' :: ']' :: r).span (fun c => decide (c ≠ '"')) =
      (s.data, '"' :: ']' :: r) :=
    span_append_of s.data ('"' :: ']' :: r)
      (fun c hc => by simp [hs c hc])
      (fun c hc => by
        simp only [List.head?] at hc
        cases hc
        simp)
  rw [hspan]
  have hfin : Except.map
      (fun x => Traverser.index (CtyVal.str ⟨s.data⟩) :: x) (lexRest f1 r) =
      Except.ok (Traverser.index (CtyVal.str s) :: ts) := by
    rw [h f1 (by
      have h5 := List.length_append s.data ('"' :: ']' :: r)
      simp at h5 hf ⊢
      omega)]
    rfl
  exact hfin

lemma lexOk_intkey (n : Int) (hn : 0 ≤ n) (r : List Char) (ts : List Traverser)
    (h : LexOk r ts) :
    LexOk ('[' :: (intChars n ++ ']' :: r)) (.index (.num (.ok n)) :: ts) := by
  intro f hf
  simp only [List.length_cons] at hf
  obtain ⟨f1, rfl⟩ : ∃ f1, f = f1 + 1 := ⟨f - 1, by omega⟩
  have hchars : intChars n = natChars n.toNat := by
    rw [intChars, if_neg (by omega)]
  obtain ⟨hne, hdig, hval⟩ := natChars_spec n.toNat
  obtain ⟨d, ds, hd⟩ : ∃ d ds, natChars n.toNat = d :: ds := by
    rcases hx : natChars n.toNat with _ | ⟨d, ds⟩
    · exact absurd hx hne
    · exact ⟨d, ds, rfl⟩
  have hddig : d.isDigit = true := hdig d (by rw [hd]; exact List.mem_cons_self _ _)
  have hdq : d ≠ '"' := by
    intro he
    rw [he] at hddig
    exact absurd hddig (by decide)
  rw [hchars, hd]
  simp only [List.cons_append]
  rw [lexRest_bracket_eq f1 d hdq (ds ++ ']' :: r)]
  have hspan : ((d :: ds) ++ ']' :: r).span Char.isDigit = (d :: ds, ']' :: r) :=
    span_append_of (d :: ds) (']' :: r)
      (fun c hc => hdig c (by rw [hd]; exact hc))
      (fun c hc => by
        simp only [List.head?] at hc
        cases hc
        rfl)
  simp only [List.cons_append] at hspan
  rw [hspan]
  rw [if_neg (by simp)]
  have hv : Int.ofNat (digitsVal (d :: ds)) = n := by
    rw [← hd, hval]
    exact Int.toNat_of_nonneg hn
  have hfin : Except.map
      (fun x => Traverser.index (CtyVal.num (.ok (Int.ofNat (digitsVal (d :: ds))))) :: x)
      (lexRest f1 r) =
      Except.ok (Traverser.index (CtyVal.num (.ok n)) :: ts) := by
    rw [h f1 (by
      have h2 := List.length_append (natChars n.toNat) (']' :: r)
      rw [hd] at h2
      simp at h2 hf ⊢
      omega), hv]
    rfl
  exact hfin

lemma lexOk_key (k : InstanceKey) (r : List Char) (ts : List Traverser)
    (hk : match k with
      | .noKey => True
      | .stringKey s => ∀ c ∈ s.data, c ≠ '"'
      | .intKey n => 0 ≤ n)
    (h : LexOk r ts) :
    LexOk (keyChars k ++ r) (keyToks k ++ ts) := by
  rcases k with _ | s | n
  · simpa [keyChars_none, keyToks] using h
  · have h2 := lexOk_strkey s r ts hk h
    rw [keyChars_string, keyToks]
    simpa [List.append_assoc] using h2
  · have h2 := lexOk_intkey n hk r ts h
    rw [keyChars_int, keyToks]
    simpa [List.append_assoc] using h2

end Addrs

namespace Addrs

lemma validStep_parts (u : ModuleInstanceStep) (h : validStep u = true) :
    validIdent u.name = true ∧
      (match u.instanceKey with
       | .noKey => True
       | .stringKey s => ∀ c ∈ s.data, c ≠ '"'
       | .intKey n => 0 ≤ n) := by
  obtain ⟨nm, ik⟩ := u
  rw [validStep] at h
  obtain ⟨h1, h2⟩ := (Bool.and_eq_true _ _).mp h
  refine ⟨h1, ?_⟩
  rcases ik with _ | s | n
  · trivial
  · simp only [List.all_eq_true, decide_eq_true_eq] at h2
    exact h2
  · simpa using h2

lemma headNot_keyTail (k : InstanceKey) (rest : ModuleInstance) :
    ∀ c, (keyChars k ++ tailChars rest).head? = some c → isIdentCont c = false := by
  intro c hc
  rcases k with _ | s | n
  · rw [keyChars_none, List.nil_append] at hc
    rcases rest with _ | ⟨u, rest'⟩
    · cases hc
    · have h2 : (tailChars (u :: rest')).head? = some '.' := rfl
      rw [h2] at hc
      cases hc
      decide
  · rw [keyChars_string] at hc
    simp only [List.cons_append, List.head?_cons] at hc
    cases hc
    decide
  · rw [keyChars_int] at hc
    simp only [List.cons_append, List.head?_cons] at hc
    cases hc
    decide

lemma lexOk_tail :
    ∀ m : ModuleInstance, (∀ u ∈ m, validStep u = true) →
      LexOk (tailChars m) (tailToks m) := by
  intro m
  induction m with
  | nil =>
    intro _
    exact lexOk_nil
  | cons u rest ih =>
    intro hv
    obtain ⟨hname, hkey⟩ := validStep_parts u (hv u (List.mem_cons_self _ _))
    have ihh := ih (fun x hx => hv x (List.mem_cons_of_mem _ hx))
    have hk := lexOk_key u.instanceKey _ _ hkey ihh
    have hn := lexOk_dot u.name _ _ hname (headNot_keyTail u.instanceKey rest) hk
    have hm := lexOk_dot "module"
      ('.' :: (u.name.data ++ (keyChars u.instanceKey ++ tailChars rest))) _
      (by decide)
      (fun c hc => by
        simp only [List.head?_cons] at hc
        cases hc
        decide)
      hn
    have hcshape : tailChars (u :: rest) =
        '.' :: (("module" : String).data ++
          '.' :: (u.name.data ++ (keyChars u.instanceKey ++ tailChars rest))) := by
      simp [tailChars, innerChars, List.append_assoc]
    have htshape : tailToks (u :: rest) =
        .attr "module" :: .attr u.name :: (keyToks u.instanceKey ++ tailToks rest) := by
      simp [tailToks]
    rw [hcshape, htshape]
    exact hm

lemma dot_data : ("." : String).data = ['.'] := rfl

lemma moduledot_data :
    ("module." : String).data = 'm' :: 'o' :: 'd' :: 'u' :: 'l' :: 'e' :: ['.'] := rfl

lemma module_data :
    ("module" : String).data = 'm' :: 'o' :: 'd' :: 'u' :: 'l' :: ['e'] := rfl

lemma render_acc :
    ∀ (m : ModuleInstance) (a : String),
      ((List.foldl
        (fun (acc : String × String) (step : ModuleInstanceStep) =>
          (acc.1 ++ acc.2 ++ "module." ++ step.name ++
            (if step.instanceKey ≠ InstanceKey.noKey then step.instanceKey.render
             else ""),
           ".")) (a, ".") m).1).data = a.data ++ tailChars m := by
  intro m
  induction m with
  | nil =>
    intro a
    simp [tailChars]
  | cons u rest ih =>
    intro a
    rw [List.foldl_cons, ih]
    simp [String.data_append, tailChars, innerChars, keyChars,
      moduledot_data, module_data, dot_data, List.append_assoc]

lemma render_data (s : ModuleInstanceStep) (rest : ModuleInstance) :
    (ModuleInstance.render (s :: rest)).data =
      ("module" : String).data ++
        '.' :: (s.name.data ++ (keyChars s.instanceKey ++ tailChars rest)) := by
  rw [ModuleInstance.render, List.foldl_cons, render_acc]
  simp [String.data_append, keyChars, moduledot_data, module_data,
    List.append_assoc]

lemma parseTraversalAbs_render (s : ModuleInstanceStep) (rest : ModuleInstance)
    (hv : ∀ u ∈ s :: rest, validStep u = true) :
    parseTraversalAbs (ModuleInstance.render (s :: rest)) =
      .ok (.root "module" ::
        .attr s.name :: (keyToks s.instanceKey ++ tailToks rest)) := by
  obtain ⟨hname, hkey⟩ := validStep_parts s (hv s (List.mem_cons_self _ _))
  have ihh := lexOk_tail rest (fun x hx => hv x (List.mem_cons_of_mem _ hx))
  have hk := lexOk_key s.instanceKey _ _ hkey ihh
  have hn := lexOk_dot s.name _ _ hname (headNot_keyTail s.instanceKey rest) hk
  rw [parseTraversalAbs, render_data]
  rw [takeIdent_append "module" _ (by decide)
    (fun c hc => by
      simp only [List.head?_cons] at hc
      cases hc
      decide)]
  dsimp only
  rw [hn _ (by
    simp only [List.length_append, List.length_cons]
    omega)]
  rfl

end Addrs

namespace Addrs

lemma parseLoop_step (kw : Traverser)
    (hkw : kw = .root "module" ∨ kw = .attr "module")
    (nm : String) (k : InstanceKey) (R : List Traverser)
    (hR : R = [] ∨ ∃ nm2 R2, R = .attr nm2 :: R2)
    (acc : ModuleInstance) (ds : List Diagnostic) :
    parsePrefixLoop (kw :: .attr nm :: (keyToks k ++ R)) acc ds =
      parsePrefixLoop R (acc ++ [⟨nm, k⟩]) ds := by
  have hkwOf : keywordOf kw ds = ("module", ds) := by
    rcases hkw with rfl | rfl <;> rfl
  rcases k with _ | s | n
  · rcases hR with rfl | ⟨nm2, R2, rfl⟩
    · rw [keyToks]
      simp only [List.nil_append]
      rw [parsePrefixLoop_pair kw (.attr nm) acc ds, hkwOf]
      simp [nameOf, parsePrefixLoop_nil]
    · rw [keyToks]
      simp only [List.nil_append]
      rw [parsePrefixLoop_attr kw (.attr nm) nm2 R2 acc ds, hkwOf]
      simp [nameOf]
  · rw [keyToks]
    simp only [List.singleton_append]
    rw [parsePrefixLoop_idx kw (.attr nm) (.str s) R acc ds, hkwOf]
    simp [nameOf, keyOf]
  · rw [keyToks]
    simp only [List.singleton_append]
    rw [parsePrefixLoop_idx kw (.attr nm) (.num (.ok n)) R acc ds, hkwOf]
    simp [nameOf, keyOf]

lemma parseLoop_tail :
    ∀ (m : ModuleInstance) (acc : ModuleInstance) (ds : List Diagnostic),
      parsePrefixLoop (tailToks m) acc ds = (acc ++ m, [], ds) := by
  intro m
  induction m with
  | nil =>
    intro acc ds
    simp [tailToks, parsePrefixLoop_nil]
  | cons u rest ih =>
    intro acc ds
    have htshape : tailToks (u :: rest) =
        .attr "module" :: .attr u.name :: (keyToks u.instanceKey ++ tailToks rest) := by
      simp [tailToks]
    rw [htshape,
      parseLoop_step (.attr "module") (Or.inr rfl) u.name u.instanceKey
        (tailToks rest)
        (by
          rcases rest with _ | ⟨w, rest'⟩
          · exact Or.inl rfl
          · exact Or.inr ⟨"module",
              .attr w.name :: (keyToks w.instanceKey ++ tailToks rest'),
              by simp [tailToks]⟩)
        acc ds,
      ih]
    have hu : (⟨u.name, u.instanceKey⟩ : ModuleInstanceStep) = u := rfl
    rw [hu]
    simp

lemma parseLoop_toks (s : ModuleInstanceStep) (rest : ModuleInstance) :
    parsePrefixLoop
        (.root "module" :: .attr s.name :: (keyToks s.instanceKey ++ tailToks rest))
        [] [] =
      (s :: rest, [], []) := by
  rw [parseLoop_step (.root "module") (Or.inl rfl) s.name s.instanceKey
      (tailToks rest)
      (by
        rcases rest with _ | ⟨w, rest'⟩
        · exact Or.inl rfl
        · exact Or.inr ⟨"module",
            .attr w.name :: (keyToks w.instanceKey ++ tailToks rest'),
            by simp [tailToks]⟩)
      [] [],
    parseLoop_tail]
  have hs : (⟨s.name, s.instanceKey⟩ : ModuleInstanceStep) = s := rfl
  rw [hs]
  simp

/-- C3 (counterexample). The claim requires only non-empty step names, but
the step name `a.b` is non-empty and still fails to round-trip: it renders to
`module.a.b`, which re-parses as the one-step address `module.a` followed by
leftover content, so re-parsing does not return the original address with no
diagnostics. -/
theorem roundtrip_counterexample :
    "a.b" ≠ "" ∧
      ParseModuleInstanceStr
          (ModuleInstance.render [⟨"a.b", .noKey⟩]) ≠
        ([⟨"a.b", .noKey⟩], []) := by
  decide

/-- C3 (amended). For every non-empty `ModuleInstance` whose step names are
identifiers (nonempty; an ASCII letter or underscore followed by letters,
digits, underscores or hyphens), whose string instance keys contain no quote
character and whose integer instance keys are non-negative, rendering with
`String` and re-parsing with `ParseModuleInstanceStr` yields exactly the
original address with no diagnostics (hence an empty remainder). -/
theorem roundtrip_spec (m : ModuleInstance) (hne : m ≠ [])
    (hvalid : ∀ u ∈ m, validStep u = true) :
    ParseModuleInstanceStr (ModuleInstance.render m) = (m, []) := by
  obtain ⟨s, rest, rfl⟩ : ∃ s rest, m = s :: rest := by
    rcases m with _ | ⟨s, rest⟩
    · exact absurd rfl hne
    · exact ⟨s, rest, rfl⟩
  rw [ParseModuleInstanceStr, parseTraversalAbs_render s rest hvalid]
  dsimp only
  have hpre : parseModuleInstancePrefix
      (.root "module" :: .attr s.name :: (keyToks s.instanceKey ++ tailToks rest)) =
      (s :: rest, [], []) := by
    rw [parseModuleInstancePrefix, parseLoop_toks]
    rfl
  simp [parseModuleInstance, hpre]

/-- Witness for C3 (amended) at the concrete address
`module.foo["x"].module.bar[2]`. -/
theorem roundtrip_spec_witness :
    (([⟨"foo", .stringKey "x"⟩, ⟨"bar", .intKey 2⟩] : ModuleInstance) ≠ [] ∧
      ∀ u ∈ ([⟨"foo", .stringKey "x"⟩, ⟨"bar", .intKey 2⟩] : ModuleInstance),
        validStep u = true) ∧
    ParseModuleInstanceStr
        (ModuleInstance.render [⟨"foo", .stringKey "x"⟩, ⟨"bar", .intKey 2⟩]) =
      ([⟨"foo", .stringKey "x"⟩, ⟨"bar", .intKey 2⟩], []) :=
  ⟨⟨by decide, by decide⟩, roundtrip_spec _ (by decide) (by decide)⟩

end Addrs
